import Mathlib

/-!
Verification of the mutation engine of `generate_mutants.py`.

Source text is embedded as `List Char` (the character data of a Python `str`),
with `'\n'` as the sole line separator (all inputs of interest use Unix line
endings).  External collaborators of the engine — `ast.parse` (statement line
extraction / store-variable collection), `autopep8.fix_code`, `random.shuffle`,
`random.sample`, `tokenize`/`untokenize` — are passed in as explicit oracle
functions, so each mutator is a pure function of its text inputs and of the
oracle draws, exactly mirroring the control flow of the source.
-/

namespace LLMFL

/-- Python whitespace characters matched by `\s` in `re` and stripped by
`str.strip()` (ASCII fragment, which covers the engine's inputs). -/
def isPyWspace (c : Char) : Bool :=
  c = ' ' || c = '\t' || c = '\n' || c = '\r' || c = '\x0b' || c = '\x0c'

/-- `line.strip() == ""`, i.e. the line consists only of whitespace. -/
def isBlankLine (l : List Char) : Bool :=
  l.all isPyWspace

/-- Leading whitespace run of a line: `re.match(r'^(\s*)', line).group(1)`. -/
def leadingWs (l : List Char) : List Char :=
  l.takeWhile isPyWspace

/-- `s.split('\n')`: split at every newline; always returns at least one part,
and one part more than the number of newlines. -/
def splitOnNl : List Char → List (List Char)
  | [] => [[]]
  | c :: rest =>
    if c = '\n' then [] :: splitOnNl rest
    else
      match splitOnNl rest with
      | [] => [[c]]
      | l :: ls => (c :: l) :: ls

/-- `s.splitlines()` (with `\n` as the only line break): like `split('\n')`
but without a trailing empty part when the text ends in a newline. -/
def pySplitlines (s : List Char) : List (List Char) :=
  let parts := splitOnNl s
  if parts.getLast? = some [] then parts.dropLast else parts

/-- `s.splitlines(keepends=True)` (with `\n` as the only line break). -/
def splitlinesKeepends : List Char → List (List Char)
  | [] => []
  | c :: rest =>
    if c = '\n' then ['\n'] :: splitlinesKeepends rest
    else
      match splitlinesKeepends rest with
      | [] => [[c]]
      | l :: ls => (c :: l) :: ls

/-- `"\n".join(lines)`. -/
def joinNl : List (List Char) → List Char
  | [] => []
  | [l] => l
  | l :: ls => l ++ '\n' :: joinNl ls

/-- Number of lines of a text, in the sense of `len(s.splitlines())`. -/
def lineCount (s : List Char) : Nat :=
  (pySplitlines s).length

theorem splitOnNl_cons_nl (s : List Char) :
    splitOnNl ('\n' :: s) = [] :: splitOnNl s := by
  simp [splitOnNl]

theorem splitOnNl_cons_ne {c : Char} (h : ¬c = '\n') (s : List Char)
    {l : List Char} {ls : List (List Char)} (hr : splitOnNl s = l :: ls) :
    splitOnNl (c :: s) = (c :: l) :: ls := by
  simp [splitOnNl, h, hr]

theorem splitOnNl_ne_nil (s : List Char) : splitOnNl s ≠ [] := by
  induction s with
  | nil => simp [splitOnNl]
  | cons c rest ih =>
    simp only [splitOnNl]
    split
    · simp
    · cases h : splitOnNl rest with
      | nil => simp
      | cons l ls => simp

theorem length_splitOnNl (s : List Char) :
    (splitOnNl s).length = s.count '\n' + 1 := by
  induction s with
  | nil => simp [splitOnNl]
  | cons c rest ih =>
    by_cases h : c = '\n'
    · subst h
      simp [splitOnNl, List.count_cons, ih]
    · simp only [splitOnNl, if_neg h]
      cases hr : splitOnNl rest with
      | nil => exact absurd hr (splitOnNl_ne_nil rest)
      | cons l ls =>
        rw [hr] at ih
        simp only [List.length_cons] at ih ⊢
        have hcount : (c :: rest).count '\n' = rest.count '\n' := by
          simp [List.count_cons, h]
        omega

/-- `split('\n')` is inverted by `"\n".join`. -/
theorem joinNl_splitOnNl (s : List Char) : joinNl (splitOnNl s) = s := by
  induction s with
  | nil => simp [splitOnNl, joinNl]
  | cons c rest ih =>
    by_cases h : c = '\n'
    · subst h
      simp only [splitOnNl, if_pos rfl]
      cases hr : splitOnNl rest with
      | nil => exact absurd hr (splitOnNl_ne_nil rest)
      | cons l ls =>
        rw [hr] at ih
        simp only [joinNl]
        cases ls <;> simp_all [joinNl]
    · simp only [splitOnNl, if_neg h]
      cases hr : splitOnNl rest with
      | nil => exact absurd hr (splitOnNl_ne_nil rest)
      | cons l ls =>
        rw [hr] at ih
        cases ls with
        | nil => simp_all [joinNl]
        | cons l2 ls2 => simp_all [joinNl]

theorem splitOnNl_eq_single_nil_iff (s : List Char) :
    splitOnNl s = [[]] ↔ s = [] := by
  constructor
  · intro h
    have := joinNl_splitOnNl s
    rw [h] at this
    simpa [joinNl] using this.symm
  · intro h; subst h; rfl

/-- The text ends with a newline character. -/
def endsNl : List Char → Bool
  | [] => false
  | [c] => c = '\n'
  | _ :: c :: rest => endsNl (c :: rest)

theorem endsNl_cons_cons (a b : Char) (l : List Char) :
    endsNl (a :: b :: l) = endsNl (b :: l) := rfl

theorem mem_of_endsNl {s : List Char} (h : endsNl s = true) : '\n' ∈ s := by
  induction s with
  | nil => simp [endsNl] at h
  | cons c rest ih =>
    cases rest with
    | nil =>
      simp [endsNl] at h
      simp [h]
    | cons r rest' =>
      rw [endsNl_cons_cons] at h
      exact List.mem_cons_of_mem _ (ih h)

theorem getLast?_splitOnNl (s : List Char) :
    (splitOnNl s).getLast? = some [] ↔ (s = [] ∨ endsNl s = true) := by
  induction s with
  | nil => simp [splitOnNl]
  | cons c rest ih =>
    cases rest with
    | nil =>
      by_cases h : c = '\n' <;> simp [splitOnNl, endsNl, h]
    | cons r rest' =>
      rw [endsNl_cons_cons]
      by_cases h : c = '\n'
      · subst h
        rw [splitOnNl_cons_nl]
        cases hr : splitOnNl (r :: rest') with
        | nil => exact absurd hr (splitOnNl_ne_nil _)
        | cons l ls =>
          rw [hr] at ih
          rw [List.getLast?_cons_cons]
          simpa using ih
      · cases hr : splitOnNl (r :: rest') with
        | nil => exact absurd hr (splitOnNl_ne_nil _)
        | cons l ls =>
          rw [splitOnNl_cons_ne h _ hr]
          rw [hr] at ih
          cases ls with
          | nil =>
            constructor
            · intro hc; simp at hc
            · intro hc
              rcases hc with hc | hc
              · simp at hc
              · -- `r :: rest'` splits into a single part, hence contains no
                -- newline, contradicting that it ends in one
                have hcount : (r :: rest').count '\n' = 0 := by
                  have := length_splitOnNl (r :: rest')
                  rw [hr] at this
                  simpa using this.symm
                have hmem := mem_of_endsNl hc
                have := List.count_pos_iff.mpr hmem
                omega
          | cons l2 ls2 =>
            rw [List.getLast?_cons_cons] at ih
            rw [List.getLast?_cons_cons, ih]
            simp

/-- Line count of a text as a function of its newline count and whether it
ends in a newline. -/
theorem lineCount_formula (s : List Char) :
    lineCount s = s.count '\n' + (if s ≠ [] ∧ endsNl s = false then 1 else 0) := by
  by_cases hnil : s = []
  · subst hnil; simp [lineCount, pySplitlines, splitOnNl]
  · by_cases hend : endsNl s = true
    · have hlast : (splitOnNl s).getLast? = some [] :=
        (getLast?_splitOnNl s).mpr (Or.inr hend)
      have hcount : 1 ≤ s.count '\n' :=
        List.count_pos_iff.mpr (mem_of_endsNl hend)
      have hps : pySplitlines s = (splitOnNl s).dropLast := by
        simp [pySplitlines, hlast]
      rw [lineCount, hps, List.length_dropLast, length_splitOnNl]
      simp [hend]
    · have hlast : (splitOnNl s).getLast? ≠ some [] := by
        intro hc
        rcases (getLast?_splitOnNl s).mp hc with h | h
        · exact hnil h
        · exact hend h
      simp only [lineCount, pySplitlines, if_neg hlast]
      rw [length_splitOnNl]
      simp only [Bool.not_eq_true] at hend
      simp [hnil, hend]

theorem count_le_lineCount (s : List Char) : s.count '\n' ≤ lineCount s := by
  rw [lineCount_formula]; omega

theorem lineCount_of_endsNl {s : List Char} (h : endsNl s = true) :
    lineCount s = s.count '\n' := by
  rw [lineCount_formula]; simp [h]

theorem lineCount_of_not_endsNl {s : List Char} (hne : s ≠ [])
    (h : endsNl s = false) : lineCount s = s.count '\n' + 1 := by
  rw [lineCount_formula]; simp [hne, h]

theorem joinNl_append_nil {xs : List (List Char)} (h : xs ≠ []) :
    joinNl (xs ++ [[]]) = joinNl xs ++ ['\n'] := by
  induction xs with
  | nil => exact absurd rfl h
  | cons x xs ih =>
    cases xs with
    | nil => simp [joinNl]
    | cons y ys =>
      have := ih (by simp)
      simp only [List.cons_append, joinNl] at this ⊢
      simp [this]

/-- For a newline-terminated text, splitting into lines and re-joining with
`"\n".join(...) + "\n"` reproduces the text exactly. -/
theorem joinNl_pySplitlines {s : List Char} (h : endsNl s = true) :
    joinNl (pySplitlines s) ++ ['\n'] = s := by
  have hlast : (splitOnNl s).getLast? = some [] :=
    (getLast?_splitOnNl s).mpr (Or.inr h)
  have hne : splitOnNl s ≠ [] := splitOnNl_ne_nil s
  have hcount : 1 ≤ s.count '\n' := List.count_pos_iff.mpr (mem_of_endsNl h)
  have hlen : (splitOnNl s).length = s.count '\n' + 1 := length_splitOnNl s
  have hdrop : (splitOnNl s).dropLast ≠ [] := by
    intro hc
    have := congrArg List.length hc
    simp [List.length_dropLast, hlen] at this
    omega
  have hget : (splitOnNl s).getLast hne = [] := by
    have := List.getLast?_eq_getLast (splitOnNl s) hne
    rw [this] at hlast
    exact (Option.some_inj.mp hlast)
  have hsplit : (splitOnNl s).dropLast ++ [[]] = splitOnNl s := by
    conv_rhs => rw [← List.dropLast_append_getLast hne]
    rw [hget]
  simp only [pySplitlines, hlast, if_pos rfl]
  calc joinNl (splitOnNl s).dropLast ++ ['\n']
      = joinNl ((splitOnNl s).dropLast ++ [[]]) := (joinNl_append_nil hdrop).symm
    _ = joinNl (splitOnNl s) := by rw [hsplit]
    _ = s := joinNl_splitOnNl s

theorem count_joinNl {ls : List (List Char)} (h : ls ≠ []) :
    (joinNl ls).count '\n' + 1 = (ls.map (List.count '\n')).sum + ls.length := by
  induction ls with
  | nil => exact absurd rfl h
  | cons l ls ih =>
    cases ls with
    | nil => simp [joinNl]
    | cons l2 ls2 =>
      have := ih (by simp)
      simp only [joinNl, List.count_append, List.count_cons, List.map_cons,
        List.sum_cons, List.length_cons] at this ⊢
      simp at this ⊢
      omega

/-- The text `"\n".join(lines) + "\n"` has at least as many lines as `lines`
(more when a joined line itself contains a newline). -/
theorem endsNl_append_nl (t : List Char) : endsNl (t ++ ['\n']) = true := by
  induction t with
  | nil => rfl
  | cons c t ih =>
    cases ht : t ++ ['\n'] with
    | nil => simp at ht
    | cons d m =>
      rw [List.cons_append, ht, endsNl_cons_cons c d m, ← ht]
      exact ih

theorem length_le_lineCount_joinNl {ls : List (List Char)} (h : ls ≠ []) :
    ls.length ≤ lineCount (joinNl ls ++ ['\n']) := by
  have hend : endsNl (joinNl ls ++ ['\n']) = true := endsNl_append_nl _
  rw [lineCount_of_endsNl hend]
  rw [List.count_append]
  have := count_joinNl h
  simp only [List.count_cons, List.count_nil] at *
  simp at *
  omega

theorem splitlinesKeepends_cons_nl (s : List Char) :
    splitlinesKeepends ('\n' :: s) = ['\n'] :: splitlinesKeepends s := by
  simp [splitlinesKeepends]

theorem splitlinesKeepends_cons_ne {c : Char} (h : ¬c = '\n') (s : List Char)
    {l : List Char} {ls : List (List Char)} (hr : splitlinesKeepends s = l :: ls) :
    splitlinesKeepends (c :: s) = (c :: l) :: ls := by
  simp [splitlinesKeepends, h, hr]

theorem splitlinesKeepends_singleton {c : Char} (h : ¬c = '\n') :
    splitlinesKeepends [c] = [[c]] := by
  simp [splitlinesKeepends, h]

theorem splitlinesKeepends_eq_nil_iff (s : List Char) :
    splitlinesKeepends s = [] ↔ s = [] := by
  induction s with
  | nil => simp [splitlinesKeepends]
  | cons c rest ih =>
    by_cases h : c = '\n'
    · subst h; simp [splitlinesKeepends]
    · simp only [splitlinesKeepends, if_neg h]
      cases hr : splitlinesKeepends rest <;> simp

/-- `splitlines(keepends=True)` concatenates back to the original text. -/
theorem join_splitlinesKeepends (s : List Char) :
    (splitlinesKeepends s).flatten = s := by
  induction s with
  | nil => simp [splitlinesKeepends]
  | cons c rest ih =>
    by_cases h : c = '\n'
    · subst h
      rw [splitlinesKeepends_cons_nl]
      simpa using ih
    · cases hr : splitlinesKeepends rest with
      | nil =>
        have hrest : rest = [] := (splitlinesKeepends_eq_nil_iff rest).mp hr
        subst hrest
        rw [splitlinesKeepends_singleton h]
        simp
      | cons l ls =>
        rw [splitlinesKeepends_cons_ne h rest hr]
        rw [hr] at ih
        simpa using congrArg (c :: ·) ih

theorem ne_nil_of_mem_splitlinesKeepends (s : List Char) :
    ∀ l ∈ splitlinesKeepends s, l ≠ [] := by
  induction s with
  | nil => intro l h; simp [splitlinesKeepends] at h
  | cons c rest ih =>
    intro l h
    by_cases hc : c = '\n'
    · subst hc
      rw [splitlinesKeepends_cons_nl] at h
      rcases List.mem_cons.mp h with h | h
      · simp [h]
      · exact ih l h
    · cases hr : splitlinesKeepends rest with
      | nil =>
        have hrest : rest = [] := (splitlinesKeepends_eq_nil_iff rest).mp hr
        subst hrest
        rw [splitlinesKeepends_singleton hc] at h
        simp at h
        simp [h]
      | cons l0 ls =>
        rw [splitlinesKeepends_cons_ne hc rest hr] at h
        rcases List.mem_cons.mp h with h | h
        · simp [h]
        · exact ih l (by rw [hr]; exact List.mem_cons_of_mem _ h)

/-- The keepends split has exactly as many parts as `splitlines()` has
lines. -/
theorem length_splitlinesKeepends (s : List Char) :
    (splitlinesKeepends s).length = lineCount s := by
  rw [lineCount_formula]
  induction s with
  | nil => simp [splitlinesKeepends]
  | cons c rest ih =>
    by_cases h : c = '\n'
    · subst h
      rw [splitlinesKeepends_cons_nl, List.length_cons, ih]
      cases rest with
      | nil => simp [splitlinesKeepends, endsNl, List.count_cons]
      | cons r rest' =>
        rw [endsNl_cons_cons]
        simp only [List.count_cons]
        by_cases he : endsNl (r :: rest') = false
        · simp [he]
        · simp [he]
    · cases hr : splitlinesKeepends rest with
      | nil =>
        have hrest : rest = [] := (splitlinesKeepends_eq_nil_iff rest).mp hr
        subst hrest
        rw [splitlinesKeepends_singleton h]
        simp [endsNl, h, List.count_cons]
      | cons l ls =>
        rw [splitlinesKeepends_cons_ne h rest hr, List.length_cons]
        rw [hr, List.length_cons] at ih
        cases rest with
        | nil => simp [splitlinesKeepends] at hr
        | cons r rest' =>
          rw [endsNl_cons_cons]
          by_cases he : endsNl (r :: rest') = false <;>
            simp [List.count_cons, h, he] at ih ⊢ <;> omega

/-- Python `list.insert(i, x)` (negative indices count from the end, indices
past the end append). -/
def pyInsert {α : Type} (l : List α) (i : Int) (x : α) : List α :=
  let n : Int := l.length
  let j : Nat := if i < 0 then (max (i + n) 0).toNat else min i.toNat l.length
  l.take j ++ x :: l.drop j

theorem length_pyInsert {α : Type} (l : List α) (i : Int) (x : α) :
    (pyInsert l i x).length = l.length + 1 := by
  simp only [pyInsert]
  rw [List.length_append, List.length_cons, List.length_take, List.length_drop]
  omega

/-- In-range insertion is take-append-drop. -/
theorem pyInsert_eq_of_range {α : Type} (l : List α) (i : Int) (x : α)
    (h0 : 0 ≤ i) (h1 : i.toNat ≤ l.length) :
    pyInsert l i x = l.take i.toNat ++ x :: l.drop i.toNat := by
  simp only [pyInsert]
  rw [if_neg (by omega)]
  rw [min_eq_left h1]

/-- Python slice `l[:k]` for an arbitrary integer bound. -/
def pySliceTo {α : Type} (l : List α) (k : Int) : List α :=
  if k < 0 then l.take (max ((l.length : Int) + k) 0).toNat else l.take k.toNat

theorem length_pySliceTo_le {α : Type} (l : List α) (k : Int) (hk : 0 ≤ k) :
    (pySliceTo l k).length ≤ k.toNat := by
  simp only [pySliceTo, if_neg (by omega : ¬k < 0)]
  simp [List.length_take]

theorem pySliceTo_nonneg {α : Type} (l : List α) (k : Int) (hk : 0 ≤ k) :
    pySliceTo l k = l.take k.toNat := by
  simp [pySliceTo, if_neg (by omega : ¬k < 0)]

/-- Lookup in a Python dict built with `dict(pairs)`: the last binding of a
key wins. -/
def dictLookup {α : Type} [DecidableEq α] {β : Type}
    (pairs : List (α × β)) (k : α) : Option β :=
  pairs.foldl (fun acc p => if p.1 = k then some p.2 else acc) none

/-! ## `textwrap.dedent` -/

/-- Characters counted as indentation by `textwrap.dedent` (`[ \t]`). -/
def isIndentChar (c : Char) : Bool :=
  c = ' ' || c = '\t'

/-- Longest common prefix of two character lists (the net effect of the
margin-narrowing loop in `textwrap.dedent`). -/
def commonPrefix : List Char → List Char → List Char
  | x :: xs, y :: ys => if x = y then x :: commonPrefix xs ys else []
  | _, _ => []

/-- `textwrap.dedent(text)`: whitespace-only lines are normalized to empty,
the longest common `[ \t]` prefix of all content-bearing lines is computed,
and that margin is removed from the start of every line carrying it. -/
def pyDedent (text : List Char) : List Char :=
  let lines := splitOnNl text
  let lines := lines.map (fun l =>
    if l ≠ [] ∧ l.all isIndentChar then [] else l)
  let indents := lines.filterMap (fun l =>
    let ind := l.takeWhile isIndentChar
    if l.drop ind.length ≠ [] then some ind else none)
  let margin := match indents with
    | [] => []
    | i :: is => is.foldl commonPrefix i
  let lines := if margin.isEmpty then lines
    else lines.map (fun l =>
      if l.take margin.length = margin then l.drop margin.length else l)
  joinNl lines

/-! ## The mutators of `generate_mutants.py` -/

/-- `get_base_indent(lines, pos)`: the `\s*` prefix of `lines[pos]` when in
range, otherwise the `\s*` prefix of the closest preceding line with
non-whitespace content (empty if there is none). -/
def get_base_indent (lines : List (List Char)) (pos : Nat) : List Char :=
  if h : pos < lines.length then leadingWs lines[pos]
  else
    match (lines.take pos).reverse.find? (fun l => !isBlankLine l) with
    | some l => leadingWs l
    | none => []

/-- `indent_snippet(snippet, base_indent)`: dedent, split into lines, keep the
non-blank lines, and re-indent each with `base_indent` plus a newline. -/
def indent_snippet (snippet : List Char) (base_indent : List Char) :
    List (List Char) :=
  let dedented := pyDedent snippet
  let snippet_lines := pySplitlines dedented
  (snippet_lines.filter (fun l => !isBlankLine l)).map
    (fun l => base_indent ++ l ++ ['\n'])

/-- The parse-with-one-reformat-retry pattern shared by the comment injector
and the variable renamer: `ast.parse`, on failure `autopep8.fix_code` and one
retry.  Returns the text the caller proceeds with, paired with the parse
outcome. -/
def parseWithRetry {α : Type} (parse : List Char → Option α)
    (fix_code : List Char → List Char) (code : List Char) :
    List Char × Option α :=
  match parse code with
  | some r => (code, some r)
  | none =>
    let code2 := fix_code code
    match parse code2 with
    | some r => (code2, some r)
    | none => (code2, none)

/-- The insertion loop of `insert_comments_str`: for each position (ascending),
insert the next comment at list index `pos - 1` and bump the bug line when
`pos <= bug_line`.  State: remaining positions, current line list, current new
bug line, current comment index. -/
def commentLoop (num_comments : Int) (comments_list : List (List Char))
    (bug_line : Int) :
    List Nat → List (List Char) → Int → Int → List (List Char) × Int
  | [], updated, new_bug, _ => (updated, new_bug)
  | pos :: rest, updated, new_bug, comment_index =>
    if comment_index < num_comments then
      let updated2 := pyInsert updated ((pos : Int) - 1)
        (comments_list.getD comment_index.toNat [])
      let new_bug2 := if (pos : Int) ≤ bug_line then new_bug + 1 else new_bug
      commentLoop num_comments comments_list bug_line rest updated2 new_bug2
        (comment_index + 1)
    else
      commentLoop num_comments comments_list bug_line rest updated new_bug
        comment_index

/-- Body of `insert_comments_str` after a successful parse.  `linenos` is the
multiset of `node.lineno` values delivered by `ast.walk`; `shuffle` is the
`random.shuffle` draw. -/
def insert_comments_go (shuffle : List Nat → List Nat) (code : List Char)
    (bug_line : Int) (num_comments : Int) (comments_list : List (List Char))
    (linenos : List Nat) : Except (List Char) (List Char × Int) :=
  let statement_lines := List.insertionSort (· ≤ ·) linenos.dedup
  if (comments_list.length : Int) < num_comments then
    .error ("Requested number of comments exceeds available comments".data)
  else if statement_lines = [] then .ok (code, bug_line)
  else
    let shuffled := shuffle statement_lines
    let insert_positions := List.insertionSort (· ≤ ·)
      (pySliceTo shuffled num_comments)
    let updated_lines := pySplitlines code
    let res := commentLoop num_comments comments_list bug_line insert_positions
      updated_lines bug_line 0
    .ok (joinNl res.1 ++ ['\n'], res.2)

/-- `insert_comments_str(code, bug_line, num_comments, comments_list)`.
Oracles: `parse` models `ast.parse` + statement-line extraction (`none` =
parse error), `fix_code` models `autopep8.fix_code`, `shuffle` models
`random.shuffle`.  An `Except.error` models the raised `ValueError`. -/
def insert_comments_str (parse : List Char → Option (List Nat))
    (fix_code : List Char → List Char) (shuffle : List Nat → List Nat)
    (code : List Char) (bug_line : Int) (num_comments : Int)
    (comments_list : List (List Char)) : Except (List Char) (List Char × Int) :=
  match parseWithRetry parse fix_code code with
  | (code2, some linenos) =>
    insert_comments_go shuffle code2 bug_line num_comments comments_list linenos
  | (code2, none) => .ok (code2, bug_line)

/-- A `tokenize.TokenInfo` record. -/
structure Tok where
  type : Nat
  string : List Char
  start : Nat × Nat
  stop : Nat × Nat
  line : List Char
deriving DecidableEq

/-- `tokenize.NAME` (CPython token number 1). -/
def NAME : Nat := 1

/-- Body of `update_variable_names_str` after a successful parse.  `old_vars`
is the store-context variable list delivered by the `VariableCollector`
visitor (in Python set-iteration order); `tokenizeF`/`untokenizeF` model the
`tokenize` module (`none` = `TokenError`). -/
def update_variable_names_go (tokenizeF : List Char → Option (List Tok))
    (untokenizeF : List Tok → List Char) (code : List Char) (bug_line : Int)
    (num_vars : Int) (vars_list : List (List Char))
    (old_vars : List (List Char)) : List Char × Int :=
  let rename_map := (pySliceTo old_vars num_vars).zip (pySliceTo vars_list num_vars)
  match tokenizeF code with
  | none => (code, bug_line)
  | some toks =>
    let toks2 := toks.map (fun tok =>
      if tok.type = NAME ∧ (dictLookup rename_map tok.string).isSome then
        { tok with string := (dictLookup rename_map tok.string).getD [] }
      else tok)
    (untokenizeF toks2, bug_line)

/-- `update_variable_names_str(code, bug_line, num_vars, vars_list)`. -/
def update_variable_names_str (parseVars : List Char → Option (List (List Char)))
    (fix_code : List Char → List Char)
    (tokenizeF : List Char → Option (List Tok))
    (untokenizeF : List Tok → List Char) (code : List Char) (bug_line : Int)
    (num_vars : Int) (vars_list : List (List Char)) : List Char × Int :=
  match parseWithRetry parseVars fix_code code with
  | (code2, some old_vars) =>
    update_variable_names_go tokenizeF untokenizeF code2 bug_line num_vars
      vars_list old_vars
  | (code2, none) => (code2, bug_line)

/-- The splicing loop of `insert_dead_code_snippets_str`: copy original lines
up to each insertion position, emit the re-indented snippet there, and append
the remaining original lines at the end.  `current` is `current_index`. -/
def buildNewLines (original : List (List Char)) :
    Nat → List (Nat × List Char) → List (List Char)
  | current, [] => original.drop current
  | current, (pos, snippet) :: rest =>
    (original.drop current).take (pos - current)
      ++ indent_snippet snippet (get_base_indent original pos)
      ++ buildNewLines original (max current pos) rest

/-- `insert_dead_code_snippets_str(code, bug_line, num_dead, dead_snippets)`.
Oracles: `sampleSnips k` models `random.sample(dead_snippets, k)` and
`samplePos k` models `random.sample(range(0, total_lines + 1), k)`. -/
def insert_dead_code_snippets_str (sampleSnips : Nat → List (List Char))
    (samplePos : Nat → List Nat) (code : List Char) (bug_line : Int)
    (num_dead : Int) (dead_snippets : List (List Char)) : List Char × Int :=
  let original_lines := splitlinesKeepends code
  let total_lines := original_lines.length
  let num_snippets : Int :=
    min num_dead (min (dead_snippets.length : Int) (total_lines : Int))
  if num_snippets ≤ 0 then (code, bug_line)
  else
    let n := num_snippets.toNat
    let chosen_snippets := sampleSnips n
    let insertion_positions := List.insertionSort (· ≤ ·) (samplePos n)
    let zipped := insertion_positions.zip chosen_snippets
    let extra_lines_before_bug : Int := zipped.foldl
      (fun acc pr =>
        if (pr.1 : Int) ≤ bug_line - 1 then
          acc + ((pySplitlines (pyDedent pr.2)).length : Int)
        else acc) 0
    let new_bug_line := bug_line + extra_lines_before_bug
    let pairs := List.insertionSort (fun p q : Nat × List Char => p.1 ≤ q.1) zipped
    let new_lines := buildNewLines original_lines 0 pairs
    (new_lines.flatten, new_bug_line)

/-! ## Per-sample section of `process_dataset` -/

/-- One output record written by `process_dataset` (folder name, mutated code,
updated defect line; the recomputed percentage string is a pure function of
the latter two and is not modelled separately). -/
structure OutRecord where
  folder : List Char
  buggy_code : List Char
  line_no : Int
deriving DecidableEq

/-- The five output folders, in the order the branches run. -/
def outputFolders : List (List Char) :=
  ["commented".data, "variable".data, "dead_code".data,
   "variable_cumulative".data, "dead_code_cumulative".data]

/-- The five mutation branches `process_dataset` runs for one sample, in
source order (a–e).  Each branch is wrapped in `try/except` whose handler
executes `continue`, so a failing branch ends the whole sample: the list of
written records is cut off at the first failure.  A branch fails when the
mutator raises (`ValueError` of the comment injector) or when the recomputed
percentage divides by a zero line count. -/
def processSample (parse : List Char → Option (List Nat))
    (fix_code : List Char → List Char) (shuffle : List Nat → List Nat)
    (parseVars : List Char → Option (List (List Char)))
    (tokenizeF : List Char → Option (List Tok))
    (untokenizeF : List Tok → List Char)
    (sampleSnips1 : Nat → List (List Char)) (samplePos1 : Nat → List Nat)
    (sampleSnips2 : Nat → List (List Char)) (samplePos2 : Nat → List Nat)
    (buggy_code : List Char) (bug_line : Int)
    (num_comments : Int) (comments_list : List (List Char))
    (num_vars : Int) (vars_list : List (List Char))
    (num_dead : Int) (dead_snippets : List (List Char)) : List OutRecord :=
  match insert_comments_str parse fix_code shuffle buggy_code bug_line
      num_comments comments_list with
  | .error _ => []
  | .ok (commented_code, new_line_commented) =>
    if lineCount commented_code = 0 then []
    else
      let out1 : OutRecord := ⟨"commented".data, commented_code, new_line_commented⟩
      let rv := update_variable_names_str parseVars fix_code tokenizeF untokenizeF
        buggy_code bug_line num_vars vars_list
      if lineCount rv.1 = 0 then [out1]
      else
        let out2 : OutRecord := ⟨"variable".data, rv.1, rv.2⟩
        let rd := insert_dead_code_snippets_str sampleSnips1 samplePos1
          buggy_code bug_line num_dead dead_snippets
        if lineCount rd.1 = 0 then [out1, out2]
        else
          let out3 : OutRecord := ⟨"dead_code".data, rd.1, rd.2⟩
          let rvc := update_variable_names_str parseVars fix_code tokenizeF
            untokenizeF commented_code new_line_commented num_vars vars_list
          if lineCount rvc.1 = 0 then [out1, out2, out3]
          else
            let out4 : OutRecord := ⟨"variable_cumulative".data, rvc.1, rvc.2⟩
            let rdc := insert_dead_code_snippets_str sampleSnips2 samplePos2
              rvc.1 rvc.2 num_dead dead_snippets
            if lineCount rdc.1 = 0 then [out1, out2, out3, out4]
            else
              [out1, out2, out3, out4,
               ⟨"dead_code_cumulative".data, rdc.1, rdc.2⟩]

/-! ## Claim C6 -/

/-- C6: on the 3-line input `def f(x):\n    y = x + 1\n    return y\n` with
defect line 3, inserting the single dead-code block `z = 0` at offset 1 yields
4 output lines and defect line 4, and inserting it at offset 3 yields 4 output
lines and defect line 3. -/
theorem claim6_dead_code_scenario :
    insert_dead_code_snippets_str (fun _ => [("z = 0").data]) (fun _ => [1])
        ("def f(x):\n    y = x + 1\n    return y\n").data 3 1 [("z = 0").data]
      = (("def f(x):\n    z = 0\n    y = x + 1\n    return y\n").data, 4)
    ∧ lineCount ("def f(x):\n    z = 0\n    y = x + 1\n    return y\n").data = 4
    ∧ insert_dead_code_snippets_str (fun _ => [("z = 0").data]) (fun _ => [3])
        ("def f(x):\n    y = x + 1\n    return y\n").data 3 1 [("z = 0").data]
      = (("def f(x):\n    y = x + 1\n    return y\n    z = 0\n").data, 3)
    ∧ lineCount ("def f(x):\n    y = x + 1\n    return y\n    z = 0\n").data = 4 := by
  refine ⟨?_, ?_, ?_, ?_⟩ <;> decide

/-! ## Claim C4 -/

/-- C4 (amended): when both parse attempts fail, the comment injector and the
variable renamer return the pointer unchanged, but the text they return is the
reformatted text `fix_code(code)` (the result of the single automatic
normalization), which is byte-identical to the input only when the
normalization leaves the text unchanged. -/
theorem claim4_amended (parse : List Char → Option (List Nat))
    (fix_code : List Char → List Char) (shuffle : List Nat → List Nat)
    (parseVars : List Char → Option (List (List Char)))
    (tokenizeF : List Char → Option (List Tok))
    (untokenizeF : List Tok → List Char) (code : List Char) (bug_line : Int)
    (num_comments : Int) (comments_list : List (List Char)) (num_vars : Int)
    (vars_list : List (List Char))
    (h1 : parse code = none) (h2 : parse (fix_code code) = none)
    (h3 : parseVars code = none) (h4 : parseVars (fix_code code) = none) :
    insert_comments_str parse fix_code shuffle code bug_line num_comments
        comments_list = .ok (fix_code code, bug_line)
    ∧ update_variable_names_str parseVars fix_code tokenizeF untokenizeF code
        bug_line num_vars vars_list = (fix_code code, bug_line) := by
  constructor
  · simp [insert_comments_str, parseWithRetry, h1, h2]
  · simp [update_variable_names_str, parseWithRetry, h3, h4]

/-- C4 (counterexample): with a reformatter that models `autopep8.fix_code`
appending the missing final newline (its `W292` fix), a twice-unparseable
input is returned textually changed, not byte-identical. -/
theorem claim4_counterexample :
    insert_comments_str (fun _ => none) (fun s => s ++ ['\n']) (fun l => l)
        ("x ===").data 2 3 []
      = .ok (("x ===\n").data, 2)
    ∧ ("x ===\n").data ≠ ("x ===").data := by
  constructor
  · rfl
  · decide

theorem claim4_witness :
    insert_comments_str (fun _ => none) (fun s => s ++ ['\n']) (fun l => l)
        ("x ===").data 2 3 []
      = .ok (("x ===").data ++ ['\n'], 2)
    ∧ update_variable_names_str (fun _ => none) (fun s => s ++ ['\n'])
        (fun _ => none) (fun _ => []) ("x ===").data 2 3 []
      = (("x ===").data ++ ['\n'], 2) :=
  claim4_amended (fun _ => none) (fun s => s ++ ['\n']) (fun l => l)
    (fun _ => none) (fun _ => none) (fun _ => []) ("x ===").data 2 3 [] 3 []
    rfl rfl rfl rfl

/-! ## Claim C10 -/

/-- C10: the comment injector's supply-shortage `ValueError` is raised exactly
when the structural parse succeeds (possibly after the reformat retry) and the
requested count exceeds the supply length; a twice-failed parse never raises,
and a successful parse with a shortage raises even when the statement-line set
would be empty. -/
theorem claim10_error_iff (parse : List Char → Option (List Nat))
    (fix_code : List Char → List Char) (shuffle : List Nat → List Nat)
    (code : List Char) (bug_line : Int) (num_comments : Int)
    (comments_list : List (List Char)) :
    (∃ e, insert_comments_str parse fix_code shuffle code bug_line num_comments
        comments_list = .error e)
    ↔ ((parseWithRetry parse fix_code code).2 ≠ none
        ∧ (comments_list.length : Int) < num_comments) := by
  rcases hpw : parseWithRetry parse fix_code code with ⟨code2, olin⟩
  cases olin with
  | none => simp [insert_comments_str, hpw]
  | some lin =>
    simp only [insert_comments_str, hpw]
    by_cases hlt : (comments_list.length : Int) < num_comments
    · simp [insert_comments_go, hlt]
    · simp only [insert_comments_go, if_neg hlt]
      by_cases hemp : List.insertionSort (· ≤ ·) lin.dedup = []
      · simp [hemp, hlt]
      · simp [hemp, hlt]

/-! ## Claim C8 -/

theorem zip_take_take {α β : Type} (l : List α) (m : List β) (k : Nat) :
    (l.take k).zip (m.take k) = (l.zip m).take k := by
  induction l generalizing m k with
  | nil => simp
  | cons x xs ih =>
    cases m with
    | nil => simp
    | cons y ys =>
      cases k with
      | zero => simp
      | succ k' => simp [ih ys k']

theorem take_eq_take_of_min {α : Type} (l : List α) (a b : Nat)
    (h : min a l.length = min b l.length) : l.take a = l.take b := by
  rw [List.take_eq_take]
  exact h

/-- C8: if the requested count exceeds the supply length the comment injector
raises its `ValueError` for every parsed input, whereas the dead-code injector
and the variable renamer never fail for that reason: their effective count is
silently clamped to `min(requested, supply length, other bound)` (total input
lines for the dead-code injector, number of collected variables for the
renamer). -/
theorem claim8_supply_shortage :
    (∀ (parse : List Char → Option (List Nat)) fix_code shuffle code
        (bug_line num_comments : Int) comments_list code2 lin,
        parseWithRetry parse fix_code code = (code2, some lin) →
        (comments_list.length : Int) < num_comments →
        insert_comments_str parse fix_code shuffle code bug_line num_comments
            comments_list
          = .error (("Requested number of comments exceeds available comments").data))
    ∧ (∀ sampleSnips samplePos code (bug_line num_dead : Int) dead_snippets,
        insert_dead_code_snippets_str sampleSnips samplePos code bug_line
            num_dead dead_snippets
          = insert_dead_code_snippets_str sampleSnips samplePos code bug_line
              (min num_dead (min (dead_snippets.length : Int)
                (lineCount code : Int))) dead_snippets)
    ∧ (∀ tokenizeF untokenizeF code (bug_line num_vars : Int) vars_list old_vars,
        0 ≤ num_vars →
        update_variable_names_go tokenizeF untokenizeF code bug_line num_vars
            vars_list old_vars
          = update_variable_names_go tokenizeF untokenizeF code bug_line
              (min num_vars (min (old_vars.length : Int)
                (vars_list.length : Int))) vars_list old_vars) := by
  refine ⟨?_, ?_, ?_⟩
  · intro parse fix_code shuffle code bug_line num_comments comments_list
      code2 lin hpw hlt
    simp [insert_comments_str, hpw, insert_comments_go, hlt]
  · intro ss sp code bug_line n ds
    simp only [insert_dead_code_snippets_str, length_splitlinesKeepends]
    have h : min (min n (min (ds.length : Int) (lineCount code : Int)))
        (min (ds.length : Int) (lineCount code : Int))
        = min n (min (ds.length : Int) (lineCount code : Int)) := by omega
    rw [h]
  · intro tokF untokF code bug_line n vl ov h0
    have h0' : 0 ≤ min n (min (ov.length : Int) (vl.length : Int)) := by
      have := Int.ofNat_nonneg ov.length
      have := Int.ofNat_nonneg vl.length
      omega
    simp only [update_variable_names_go, pySliceTo_nonneg _ _ h0,
      pySliceTo_nonneg _ _ h0']
    rw [zip_take_take, zip_take_take,
      take_eq_take_of_min (ov.zip vl) (Int.toNat n)
        (Int.toNat (min n (min (ov.length : Int) (vl.length : Int))))
        (by rw [List.length_zip]; omega)]

theorem claim8_witness :
    insert_comments_str (fun _ => some [1]) (fun s => s) (fun l => l)
        ("a\n").data 1 1 []
      = .error (("Requested number of comments exceeds available comments").data)
    ∧ insert_dead_code_snippets_str (fun _ => []) (fun _ => []) ("a\n").data 1
        5 []
      = insert_dead_code_snippets_str (fun _ => []) (fun _ => []) ("a\n").data 1
          (min 5 (min ((([] : List (List Char))).length : Int)
            (lineCount ("a\n").data : Int))) []
    ∧ update_variable_names_go (fun _ => some []) (fun _ => []) ("a\n").data 1
        2 [] []
      = update_variable_names_go (fun _ => some []) (fun _ => []) ("a\n").data 1
          (min 2 (min ((([] : List (List Char))).length : Int)
            ((([] : List (List Char))).length : Int))) [] [] :=
  ⟨claim8_supply_shortage.1 _ _ _ _ _ _ _ _ _ rfl (by decide),
   claim8_supply_shortage.2.1 _ _ _ _ _ _,
   claim8_supply_shortage.2.2 _ _ _ _ _ _ _ (by decide)⟩

/-! ## Claim C7 -/

/-- C7 (amended): with a requested count of 0 every mutator returns the
pointer unchanged, and the dead-code injector returns the text byte-identical
unconditionally.  The comment injector re-joins the parsed text as
`"\n".join(lines) + "\n"`, which is byte-identical only when that text ends in
a newline; the renamer reproduces the parsed text through the tokenizer
round-trip (or returns it directly on a tokenizer error). -/
theorem claim7_amended :
    (∀ (parse : List Char → Option (List Nat)) fix_code shuffle code
        (bug_line : Int) comments_list lin,
        parse code = some lin →
        ∃ t, insert_comments_str parse fix_code shuffle code bug_line 0
            comments_list = .ok (t, bug_line)
          ∧ (endsNl code = true → t = code))
    ∧ (∀ (parseVars : List Char → Option (List (List Char))) fix_code tokenizeF
        untokenizeF code (bug_line : Int) vars_list ov,
        parseVars code = some ov →
        (tokenizeF code = none →
          update_variable_names_str parseVars fix_code tokenizeF untokenizeF
            code bug_line 0 vars_list = (code, bug_line))
        ∧ (∀ toks, tokenizeF code = some toks → untokenizeF toks = code →
          update_variable_names_str parseVars fix_code tokenizeF untokenizeF
            code bug_line 0 vars_list = (code, bug_line)))
    ∧ (∀ sampleSnips samplePos code (bug_line : Int) dead_snippets,
        insert_dead_code_snippets_str sampleSnips samplePos code bug_line 0
          dead_snippets = (code, bug_line)) := by
  refine ⟨?_, ?_, ?_⟩
  · intro parse fix_code shuffle code bug_line comments_list lin hp
    have hn : ¬((comments_list.length : Int) < 0) := by omega
    by_cases hemp : List.insertionSort (· ≤ ·) lin.dedup = []
    · refine ⟨code, ?_, fun _ => rfl⟩
      simp [insert_comments_str, parseWithRetry, hp, insert_comments_go, hn, hemp]
    · refine ⟨joinNl (pySplitlines code) ++ ['\n'], ?_,
        fun hend => joinNl_pySplitlines hend⟩
      have h0 : pySliceTo (shuffle (List.insertionSort (· ≤ ·) lin.dedup))
          (0 : Int) = [] := by
        simp [pySliceTo]
      simp [insert_comments_str, parseWithRetry, hp, insert_comments_go, hn,
        hemp, h0, List.insertionSort, commentLoop]
  · intro parseVars fix_code tokenizeF untokenizeF code bug_line vars_list ov hp
    constructor
    · intro htok
      simp [update_variable_names_str, parseWithRetry, hp,
        update_variable_names_go, htok]
    · intro toks htok hrt
      simp [update_variable_names_str, parseWithRetry, hp,
        update_variable_names_go, htok, pySliceTo, dictLookup, hrt]
  · intro sampleSnips samplePos code bug_line dead_snippets
    have h : min (0 : Int) (min (dead_snippets.length : Int)
        ((splitlinesKeepends code).length : Int)) ≤ 0 := min_le_left _ _
    simp [insert_dead_code_snippets_str, if_pos h]

/-- C7 (counterexample): a parse-clean input without a trailing newline is
*not* returned byte-identical by the comment injector at count 0: the re-join
appends a final newline. -/
theorem claim7_counterexample :
    insert_comments_str (fun _ => some [1]) (fun s => s) (fun l => l)
        ("x = 1").data 1 0 [] = .ok (("x = 1\n").data, 1)
    ∧ ("x = 1\n").data ≠ ("x = 1").data := by
  refine ⟨rfl, by decide⟩

theorem claim7_witness :
    insert_comments_str (fun _ => some [1]) (fun s => s) (fun l => l)
        ("x = 1\n").data 1 0 [] = .ok (("x = 1\n").data, 1)
    ∧ update_variable_names_str (fun _ => some []) (fun s => s)
        (fun _ => some []) (fun _ => ("y = 2\n").data) ("y = 2\n").data 1 0 []
      = (("y = 2\n").data, 1)
    ∧ insert_dead_code_snippets_str (fun _ => []) (fun _ => [])
        ("z = 3\n").data 1 0 [("q = 4").data] = (("z = 3\n").data, 1) := by
  obtain ⟨t, h1, h2⟩ := claim7_amended.1 (fun _ => some [1]) (fun s => s)
    (fun l => l) ("x = 1\n").data 1 [] [1] rfl
  refine ⟨?_, ?_, ?_⟩
  · rw [h2 rfl] at h1
    exact h1
  · exact (claim7_amended.2.1 (fun _ => some []) (fun s => s) (fun _ => some [])
      (fun _ => ("y = 2\n").data) ("y = 2\n").data 1 [] [] rfl).2 [] rfl rfl
  · exact claim7_amended.2.2 (fun _ => []) (fun _ => []) ("z = 3\n").data 1
      [("q = 4").data]

/-! ## Claim C1 -/

theorem foldl_if_sum {α : Type} (p : α → Prop) [DecidablePred p] (f : α → Int)
    (l : List α) (a : Int) :
    l.foldl (fun acc x => if p x then acc + f x else acc) a
      = a + ((l.filter (fun x => decide (p x))).map f).sum := by
  induction l generalizing a with
  | nil => simp
  | cons x xs ih =>
    by_cases hx : p x
    · simp [hx, ih]
      omega
    · simp [hx, ih]

/-- C1 (amended): the number of lines actually spliced in for a snippet is the
dedented snippet's non-blank line count, but the pointer delta used by the
code is the dedented snippet's *total* `splitlines()` line count (blank lines
included); the returned pointer is the original pointer plus the sum of those
total counts over exactly the insertions whose offset is at most
`original pointer - 1`. -/
theorem claim1_amended (sampleSnips : Nat → List (List Char))
    (samplePos : Nat → List Nat) (code : List Char) (bug_line num_dead : Int)
    (dead_snippets : List (List Char))
    (hpos : 0 < min num_dead (min (dead_snippets.length : Int)
      ((splitlinesKeepends code).length : Int))) :
    (∀ s b, (indent_snippet s b).length
        = ((pySplitlines (pyDedent s)).filter (fun l => !isBlankLine l)).length)
    ∧ (insert_dead_code_snippets_str sampleSnips samplePos code bug_line
        num_dead dead_snippets).2
      = bug_line +
        ((((List.insertionSort (· ≤ ·) (samplePos (min num_dead
              (min (dead_snippets.length : Int)
                ((splitlinesKeepends code).length : Int))).toNat)).zip
            (sampleSnips (min num_dead (min (dead_snippets.length : Int)
              ((splitlinesKeepends code).length : Int))).toNat)).filter
          (fun pr => decide ((pr.1 : Int) ≤ bug_line - 1))).map
            (fun pr => ((pySplitlines (pyDedent pr.2)).length : Int))).sum := by
  constructor
  · intro s b
    simp [indent_snippet]
  · have hn : ¬(min num_dead (min (dead_snippets.length : Int)
        ((splitlinesKeepends code).length : Int)) ≤ 0) := by omega
    simp only [insert_dead_code_snippets_str, if_neg hn]
    rw [foldl_if_sum (fun pr : Nat × List Char => (pr.1 : Int) ≤ bug_line - 1)
      (fun pr => ((pySplitlines (pyDedent pr.2)).length : Int))]
    omega

/-- C1 (counterexample): for the snippet `"x = 0\n\n\n"` (dedented total line
count 3, non-blank line count 1) inserted at offset 0 before defect line 3,
the returned pointer is `3 + 3 = 6`, not `3 + 1 = 4` as the claim's non-blank
delta would require. -/
theorem claim1_counterexample :
    (insert_dead_code_snippets_str (fun _ => [("x = 0\n\n\n").data])
        (fun _ => [0]) ("a = 1\nb = 2\nc = 3\n").data 3 1
        [("x = 0\n\n\n").data]).2 = 6
    ∧ ((0 : Int) ≤ 3 - 1)
    ∧ (6 : Int) ≠ 3 + (((pySplitlines (pyDedent ("x = 0\n\n\n").data)).filter
        (fun l => !isBlankLine l)).length : Int) := by
  refine ⟨rfl, by decide, by decide⟩

theorem claim1_witness :
    (indent_snippet ("x = 0\n\n\n").data []).length
        = ((pySplitlines (pyDedent ("x = 0\n\n\n").data)).filter
            (fun l => !isBlankLine l)).length
    ∧ (insert_dead_code_snippets_str (fun _ => [("q = 7\n\n").data])
        (fun _ => [1]) ("a = 1\nb = 2\nc = 3\n").data 3 1
        [("q = 7\n\n").data]).2
      = 3 + ((((List.insertionSort (· ≤ ·) ((fun _ : Nat => [1])
            (min 1 (min (([("q = 7\n\n").data] : List (List Char)).length : Int)
              ((splitlinesKeepends ("a = 1\nb = 2\nc = 3\n").data).length : Int))).toNat)).zip
          ((fun _ : Nat => [("q = 7\n\n").data]) (min 1
            (min (([("q = 7\n\n").data] : List (List Char)).length : Int)
              ((splitlinesKeepends ("a = 1\nb = 2\nc = 3\n").data).length : Int))).toNat)).filter
          (fun pr => decide ((pr.1 : Int) ≤ 3 - 1))).map
            (fun pr => ((pySplitlines (pyDedent pr.2)).length : Int))).sum :=
  ⟨(claim1_amended (fun _ => [("q = 7\n\n").data]) (fun _ => [1])
      ("a = 1\nb = 2\nc = 3\n").data 3 1 [("q = 7\n\n").data] (by decide)).1
      ("x = 0\n\n\n").data [],
   (claim1_amended (fun _ => [("q = 7\n\n").data]) (fun _ => [1])
      ("a = 1\nb = 2\nc = 3\n").data 3 1 [("q = 7\n\n").data] (by decide)).2⟩

/-! ## Claim C2 -/

/-- C2 (amended): branch failures are *not* isolated.  Each branch's
`except` handler executes `continue`, so a failure in one variant abandons
the sample from that point on: the records written for a sample are exactly
the branches before the first failing one (a prefix of the five folders, in
source order), and in particular a comment-injector error leaves no output
at all. -/
theorem claim2_amended (parse : List Char → Option (List Nat))
    (fix_code : List Char → List Char) (shuffle : List Nat → List Nat)
    (parseVars : List Char → Option (List (List Char)))
    (tokenizeF : List Char → Option (List Tok))
    (untokenizeF : List Tok → List Char)
    (sampleSnips1 : Nat → List (List Char)) (samplePos1 : Nat → List Nat)
    (sampleSnips2 : Nat → List (List Char)) (samplePos2 : Nat → List Nat)
    (buggy_code : List Char) (bug_line : Int) (num_comments : Int)
    (comments_list : List (List Char)) (num_vars : Int)
    (vars_list : List (List Char)) (num_dead : Int)
    (dead_snippets : List (List Char)) :
    ((∃ e, insert_comments_str parse fix_code shuffle buggy_code bug_line
        num_comments comments_list = .error e) →
      processSample parse fix_code shuffle parseVars tokenizeF untokenizeF
        sampleSnips1 samplePos1 sampleSnips2 samplePos2 buggy_code bug_line
        num_comments comments_list num_vars vars_list num_dead dead_snippets
        = [])
    ∧ (processSample parse fix_code shuffle parseVars tokenizeF untokenizeF
        sampleSnips1 samplePos1 sampleSnips2 samplePos2 buggy_code bug_line
        num_comments comments_list num_vars vars_list num_dead
        dead_snippets).map OutRecord.folder
      = outputFolders.take (processSample parse fix_code shuffle parseVars
          tokenizeF untokenizeF sampleSnips1 samplePos1 sampleSnips2 samplePos2
          buggy_code bug_line num_comments comments_list num_vars vars_list
          num_dead dead_snippets).length := by
  constructor
  · rintro ⟨e, he⟩
    simp [processSample, he]
  · rcases h : insert_comments_str parse fix_code shuffle buggy_code bug_line
        num_comments comments_list with e | ⟨cc, nlc⟩
    · simp [processSample, h]
    · simp only [processSample, h]
      by_cases h1 : lineCount cc = 0
      · simp [h1, outputFolders]
      · simp only [if_neg h1]
        by_cases h2 : lineCount (update_variable_names_str parseVars fix_code
            tokenizeF untokenizeF buggy_code bug_line num_vars vars_list).1 = 0
        · simp [h2, outputFolders]
        · simp only [if_neg h2]
          by_cases h3 : lineCount (insert_dead_code_snippets_str sampleSnips1
              samplePos1 buggy_code bug_line num_dead dead_snippets).1 = 0
          · simp [h3, outputFolders]
          · simp only [if_neg h3]
            by_cases h4 : lineCount (update_variable_names_str parseVars
                fix_code tokenizeF untokenizeF cc nlc num_vars vars_list).1 = 0
            · simp [h4, outputFolders]
            · simp only [if_neg h4]
              by_cases h5 : lineCount (insert_dead_code_snippets_str
                  sampleSnips2 samplePos2
                  (update_variable_names_str parseVars fix_code tokenizeF
                    untokenizeF cc nlc num_vars vars_list).1
                  (update_variable_names_str parseVars fix_code tokenizeF
                    untokenizeF cc nlc num_vars vars_list).2 num_dead
                  dead_snippets).1 = 0
              · simp [h5, outputFolders]
              · simp [h5, outputFolders]

/-- C2 (counterexample): a supply-shortage failure in the comment branch (the
first variant) leaves the sample with *no* outputs at all — in particular the
rename variant, which would have succeeded on its own, is not produced. -/
theorem claim2_counterexample :
    insert_comments_str (fun _ => some [1]) (fun s => s) (fun l => l)
        ("a = 1\n").data 1 1 []
      = .error (("Requested number of comments exceeds available comments").data)
    ∧ processSample (fun _ => some [1]) (fun s => s) (fun l => l)
        (fun _ => some []) (fun _ => some []) (fun _ => ("a = 1\n").data)
        (fun _ => []) (fun _ => []) (fun _ => []) (fun _ => [])
        ("a = 1\n").data 1 1 [] 1 [("w").data] 1 [("d = 0").data] = []
    ∧ update_variable_names_str (fun _ => some []) (fun s => s)
        (fun _ => some []) (fun _ => ("a = 1\n").data) ("a = 1\n").data 1 1
        [("w").data] = (("a = 1\n").data, 1) :=
  ⟨rfl, rfl, rfl⟩

theorem claim2_witness :
    processSample (fun _ => some [1]) (fun s => s) (fun l => l)
        (fun _ => some []) (fun _ => some []) (fun _ => ("b = 2\n").data)
        (fun _ => []) (fun _ => []) (fun _ => []) (fun _ => [])
        ("b = 2\n").data 1 1 [] 0 [] 0 [] = []
    ∧ (processSample (fun _ => some [1]) (fun s => s) (fun l => l)
        (fun _ => some []) (fun _ => some []) (fun _ => ("b = 2\n").data)
        (fun _ => []) (fun _ => []) (fun _ => []) (fun _ => [])
        ("b = 2\n").data 1 1 [] 0 [] 0 []).map OutRecord.folder
      = outputFolders.take (processSample (fun _ => some [1]) (fun s => s)
          (fun l => l) (fun _ => some []) (fun _ => some [])
          (fun _ => ("b = 2\n").data) (fun _ => []) (fun _ => [])
          (fun _ => []) (fun _ => []) ("b = 2\n").data 1 1 [] 0 [] 0 []).length :=
  ⟨(claim2_amended (fun _ => some [1]) (fun s => s) (fun l => l)
      (fun _ => some []) (fun _ => some []) (fun _ => ("b = 2\n").data)
      (fun _ => []) (fun _ => []) (fun _ => []) (fun _ => [])
      ("b = 2\n").data 1 1 [] 0 [] 0 []).1 ⟨_, rfl⟩,
   (claim2_amended (fun _ => some [1]) (fun s => s) (fun l => l)
      (fun _ => some []) (fun _ => some []) (fun _ => ("b = 2\n").data)
      (fun _ => []) (fun _ => []) (fun _ => []) (fun _ => [])
      ("b = 2\n").data 1 1 [] 0 [] 0 []).2⟩

/-! ## Claim C9 -/

/-- An identifier-shaped token string: nonempty and newline-free (true of
every `NAME` token the tokenizer emits and expected of supplied replacement
names). -/
def goodName (s : List Char) : Prop := s ≠ [] ∧ '\n' ∉ s

instance (s : List Char) : Decidable (goodName s) := by
  unfold goodName
  infer_instance

/-- `renamedOK toks toks2`: `toks2` is `toks` with only the strings of `NAME`
tokens replaced, all of them (old and new) identifier-shaped; positions,
types and source-line fields agree.  For such streams CPython's
`tokenize.untokenize` preserves the line structure of the reconstruction —
this is the documented library behaviour the renamer relies on. -/
def renamedOK : List Tok → List Tok → Prop :=
  List.Forall₂ (fun t t2 =>
    t2.type = t.type ∧ t2.start = t.start ∧ t2.stop = t.stop ∧ t2.line = t.line
    ∧ (if t.type = NAME then goodName t.string ∧ goodName t2.string
       else t2.string = t.string))

theorem dictLookup_foldl_mem {α : Type} [DecidableEq α] {β : Type}
    (pairs : List (α × β)) (k : α) (v : β) :
    ∀ acc0 : Option β,
      pairs.foldl (fun acc p => if p.1 = k then some p.2 else acc) acc0 = some v →
      (∃ p ∈ pairs, p.2 = v) ∨ acc0 = some v := by
  induction pairs with
  | nil => intro acc0 h; exact Or.inr h
  | cons q qs ih =>
    intro acc0 h
    simp only [List.foldl_cons] at h
    rcases ih _ h with ⟨p, hp, hv⟩ | hacc
    · exact Or.inl ⟨p, List.mem_cons_of_mem _ hp, hv⟩
    · by_cases hq : q.1 = k
      · rw [if_pos hq] at hacc
        exact Or.inl ⟨q, List.mem_cons_self _ _, Option.some_inj.mp hacc⟩
      · rw [if_neg hq] at hacc
        exact Or.inr hacc

theorem dictLookup_mem_values {α : Type} [DecidableEq α] {β : Type}
    {pairs : List (α × β)} {k : α} {v : β}
    (h : dictLookup pairs k = some v) : ∃ p ∈ pairs, p.2 = v := by
  rcases dictLookup_foldl_mem pairs k v none h with hm | hacc
  · exact hm
  · simp at hacc

theorem mem_pySliceTo {α : Type} {l : List α} {k : Int} {x : α}
    (h : x ∈ pySliceTo l k) : x ∈ l := by
  unfold pySliceTo at h
  split at h <;> exact List.take_subset _ _ h

/-- The renamed token stream is a `renamedOK` variant of the original. -/
theorem renamedOK_map (rm : List (List Char × List Char)) (toks : List Tok)
    (hnames : ∀ t ∈ toks, t.type = NAME → goodName t.string)
    (hvals : ∀ p ∈ rm, goodName p.2) :
    renamedOK toks (toks.map (fun tok =>
      if tok.type = NAME ∧ (dictLookup rm tok.string).isSome then
        { tok with string := (dictLookup rm tok.string).getD [] }
      else tok)) := by
  induction toks with
  | nil => exact List.Forall₂.nil
  | cons t ts ih =>
    simp only [List.map_cons]
    refine List.Forall₂.cons ?_ (ih (fun t' ht' hn => hnames t' (List.mem_cons_of_mem _ ht') hn))
    by_cases hc : t.type = NAME ∧ (dictLookup rm t.string).isSome
    · rw [if_pos hc]
      refine ⟨rfl, rfl, rfl, rfl, ?_⟩
      rw [if_pos hc.1]
      refine ⟨hnames t (List.mem_cons_self _ _) hc.1, ?_⟩
      rcases Option.isSome_iff_exists.mp hc.2 with ⟨v, hv⟩
      rcases dictLookup_mem_values hv with ⟨p, hp, hpv⟩
      simp only [hv, Option.getD_some]
      exact hpv ▸ hvals p hp
    · rw [if_neg hc]
      refine ⟨rfl, rfl, rfl, rfl, ?_⟩
      by_cases hn : t.type = NAME
      · rw [if_pos hn]
        exact ⟨hnames t (List.mem_cons_self _ _) hn, hnames t (List.mem_cons_self _ _) hn⟩
      · rw [if_neg hn]

/-- C9 (counterexample): renaming also proceeds on the reformat-retry path.
When the first parse fails, the renamer rebinds the working text to
`autopep8.fix_code(code)` before the retry and then operates on the
reformatted text: for a 3-line input whose reformatted form has 5 lines
(autopep8 inserting the blank lines and indentation the grammar requires),
renaming proceeds (retry parse and tokenization both succeed) yet the output
has 5 lines, refuting "output line count equals input line count". -/
theorem claim9_counterexample :
    (fun s => if s = ("a = 1\ndef f():\ny = 2\n").data then none
      else some ([] : List (List Char))) (("a = 1\ndef f():\ny = 2\n").data)
      = none
    ∧ (parseWithRetry
        (fun s => if s = ("a = 1\ndef f():\ny = 2\n").data then none
          else some ([] : List (List Char)))
        (fun _ => ("a = 1\n\n\ndef f():\n    y = 2\n").data)
        (("a = 1\ndef f():\ny = 2\n").data)).2 = some []
    ∧ update_variable_names_str
        (fun s => if s = ("a = 1\ndef f():\ny = 2\n").data then none
          else some ([] : List (List Char)))
        (fun _ => ("a = 1\n\n\ndef f():\n    y = 2\n").data)
        (fun _ => some ([] : List Tok))
        (fun _ => ("a = 1\n\n\ndef f():\n    y = 2\n").data)
        (("a = 1\ndef f():\ny = 2\n").data) 1 0 []
      = (("a = 1\n\n\ndef f():\n    y = 2\n").data, 1)
    ∧ lineCount ("a = 1\n\n\ndef f():\n    y = 2\n").data = 5
    ∧ lineCount ("a = 1\ndef f():\ny = 2\n").data = 3
    ∧ (5 : Nat) ≠ 3 := by
  refine ⟨by decide, by decide, rfl, by decide, by decide, by decide⟩

/-- C9 (amended): the identifier renamer never moves the pointer; and the
output's line count equals the line count of the text the renamer actually
tokenizes — which is the input text when the first parse succeeds, but the
reformatted text `autopep8.fix_code(code)` when renaming proceeds only after
the retry (given the tokenizer's line-structure-preserving reconstruction of
a renamed stream with identifier-shaped names).  The last conjunct records
that on first-parse success the tokenized text is the input itself, so only
there does the output line count equal the input line count. -/
theorem claim9_amended (parseVars : List Char → Option (List (List Char)))
    (fix_code : List Char → List Char)
    (tokenizeF : List Char → Option (List Tok))
    (untokenizeF : List Tok → List Char) (code code2 : List Char)
    (bug_line num_vars : Int) (vars_list : List (List Char))
    (ov : List (List Char)) (toks : List Tok)
    (hpw : parseWithRetry parseVars fix_code code = (code2, some ov))
    (ht : tokenizeF code2 = some toks)
    (hnames : ∀ t ∈ toks, t.type = NAME → goodName t.string)
    (hvars : ∀ v ∈ vars_list, goodName v)
    (huntok : ∀ toks2, renamedOK toks toks2 →
      lineCount (untokenizeF toks2) = lineCount code2) :
    (update_variable_names_str parseVars fix_code tokenizeF untokenizeF code
        bug_line num_vars vars_list).2 = bug_line
    ∧ lineCount (update_variable_names_str parseVars fix_code tokenizeF
        untokenizeF code bug_line num_vars vars_list).1 = lineCount code2
    ∧ (∀ r, parseVars code = some r → code2 = code) := by
  have hres : update_variable_names_str parseVars fix_code tokenizeF untokenizeF
      code bug_line num_vars vars_list
    = (untokenizeF (toks.map (fun tok =>
        if tok.type = NAME ∧ (dictLookup ((pySliceTo ov num_vars).zip
            (pySliceTo vars_list num_vars)) tok.string).isSome then
          { tok with string := (dictLookup ((pySliceTo ov num_vars).zip
              (pySliceTo vars_list num_vars)) tok.string).getD [] }
        else tok)), bug_line) := by
    simp [update_variable_names_str, hpw, update_variable_names_go, ht]
  refine ⟨by rw [hres], ?_, ?_⟩
  · rw [hres]
    refine huntok _ (renamedOK_map _ toks hnames ?_)
    intro p hp2
    exact hvars p.2 (mem_pySliceTo (List.of_mem_zip hp2).2)
  · intro r hr
    unfold parseWithRetry at hpw
    rw [hr] at hpw
    injection hpw with h1 h2
    exact h1.symm

theorem claim9_witness :
    (update_variable_names_str (fun _ => some []) (fun s => s)
        (fun _ => some []) (fun _ => ("v = 1\n").data) ("v = 1\n").data 5 1
        [("w").data]).2 = 5
    ∧ lineCount (update_variable_names_str (fun _ => some []) (fun s => s)
        (fun _ => some []) (fun _ => ("v = 1\n").data) ("v = 1\n").data 5 1
        [("w").data]).1 = lineCount ("v = 1\n").data := by
  have h := claim9_amended (fun _ => some []) (fun s => s) (fun _ => some [])
    (fun _ => ("v = 1\n").data) ("v = 1\n").data ("v = 1\n").data 5 1
    [("w").data] [] [] rfl rfl (by simp) (by decide) (fun _ _ => rfl)
  exact ⟨h.1, h.2.1⟩

/-! ## Claim C3 -/

/-- Sequential Python-style insertion: each pair `(pos, c)` inserts `c` at
list index `pos - 1` of the *current* (already grown) list, exactly as the
loop of `insert_comments_str` does. -/
def seqInsert (L : List (List Char)) : List (Nat × List Char) → List (List Char)
  | [] => L
  | (p, c) :: rest => seqInsert (pyInsert L ((p : Int) - 1) c) rest

/-- Closed form of the sequential insertion for ascending distinct positions:
the first comment is placed after `p - 1` retained lines and the remaining
insertions happen inside the suffix, with positions shifted down by `p`. -/
def spliceRec : List (List Char) → List (Nat × List Char) → List (List Char)
  | L, [] => L
  | L, (p, c) :: rest =>
    L.take (p - 1) ++ c ::
      spliceRec (L.drop (p - 1)) (rest.map (fun q => (q.1 - p, q.2)))
termination_by _ pcs => pcs.length
decreasing_by simp [List.length_map]

theorem pyInsert_append {α : Type} (A B : List α) (i : Int) (x : α)
    (h : (A.length : Int) ≤ i) :
    pyInsert (A ++ B) i x = A ++ pyInsert B (i - A.length) x := by
  have h0 : 0 ≤ i := le_trans (Int.ofNat_nonneg _) h
  simp only [pyInsert, List.length_append]
  rw [if_neg (by omega), if_neg (by omega)]
  have hj : min i.toNat (A.length + B.length)
      = A.length + min (i - A.length).toNat B.length := by omega
  rw [hj, List.take_append, List.drop_append]
  simp

theorem seqInsert_append (A : List (List Char)) :
    ∀ (pcs : List (Nat × List Char)) (B : List (List Char)),
      (∀ q ∈ pcs, A.length + 1 ≤ q.1) →
      seqInsert (A ++ B) pcs
        = A ++ seqInsert B (pcs.map (fun q => (q.1 - A.length, q.2))) := by
  intro pcs
  induction pcs with
  | nil => intro B _; rfl
  | cons q rest ih =>
    intro B h
    obtain ⟨p, c⟩ := q
    have hq : A.length + 1 ≤ p := h (p, c) (List.mem_cons_self _ _)
    simp only [seqInsert, List.map_cons]
    rw [pyInsert_append A B ((p : Int) - 1) c (by omega)]
    rw [ih _ (fun q hq2 => h q (List.mem_cons_of_mem _ hq2))]
    have hidx : (p : Int) - 1 - A.length = ((p - A.length : Nat) : Int) - 1 := by
      omega
    rw [hidx]

theorem map_fst_shift (p : Nat) (l : List (Nat × List Char)) :
    (l.map (fun q => (q.1 - p, q.2))).map Prod.fst
      = (l.map Prod.fst).map (fun x => x - p) := by
  simp [List.map_map]

theorem seqInsert_eq_spliceRec_aux :
    ∀ (n : Nat) (pcs : List (Nat × List Char)) (L : List (List Char)),
      pcs.length ≤ n →
      (pcs.map Prod.fst).Sorted (· ≤ ·) → (pcs.map Prod.fst).Nodup →
      (∀ q ∈ pcs, 1 ≤ q.1 ∧ q.1 ≤ L.length) →
      seqInsert L pcs = spliceRec L pcs := by
  intro n
  induction n with
  | zero =>
    intro pcs L hlen _ _ _
    have : pcs = [] := List.length_eq_zero.mp (Nat.le_zero.mp hlen)
    subst this
    simp [seqInsert, spliceRec]
  | succ n ih =>
    intro pcs L hlen hsort hnd hmem
    cases pcs with
    | nil => simp [seqInsert, spliceRec]
    | cons q0 rest =>
      obtain ⟨p, c⟩ := q0
      simp only [List.map_cons] at hsort hnd
      have hp1 : 1 ≤ p ∧ p ≤ L.length := hmem (p, c) (List.mem_cons_self _ _)
      have hgt : ∀ q ∈ rest, p + 1 ≤ q.1 := by
        intro q hq
        have hmem1 : q.1 ∈ rest.map Prod.fst := List.mem_map_of_mem _ hq
        have hle : p ≤ q.1 := (List.sorted_cons.mp hsort).1 q.1 hmem1
        have hne : p ≠ q.1 := by
          intro hc
          exact (List.nodup_cons.mp hnd).1 (hc ▸ hmem1)
        omega
      simp only [seqInsert]
      rw [pyInsert_eq_of_range _ _ _ (by omega) (by
        have : ((p : Int) - 1).toNat = p - 1 := by omega
        rw [this]; omega)]
      have htn : ((p : Int) - 1).toNat = p - 1 := by omega
      rw [htn]
      have hA : (L.take (p - 1) ++ [c]).length = p := by
        simp [List.length_take]
        omega
      have hsplit : L.take (p - 1) ++ c :: L.drop (p - 1)
          = (L.take (p - 1) ++ [c]) ++ L.drop (p - 1) := by simp
      rw [hsplit]
      rw [seqInsert_append _ _ _ (by
        intro q hq
        have hmq := hgt q hq
        omega)]
      rw [hA]
      rw [ih (rest.map (fun q => (q.1 - p, q.2))) (L.drop (p - 1))
        (by
          rw [List.length_map]
          have := hlen
          simp only [List.length_cons] at this
          omega)
        (by
          rw [map_fst_shift]
          refine List.Pairwise.map _ ?_ (List.sorted_cons.mp hsort).2
          intro a b hab
          exact Nat.sub_le_sub_right hab p)
        (by
          rw [map_fst_shift]
          refine (List.nodup_cons.mp hnd).2.map_on ?_
          intro a ha b hb hfab
          rcases List.mem_map.mp ha with ⟨qa, hqa, rfl⟩
          rcases List.mem_map.mp hb with ⟨qb, hqb, rfl⟩
          have h1 := hgt qa hqa
          have h2 := hgt qb hqb
          omega)
        (by
          intro q' hq'
          rcases List.mem_map.mp hq' with ⟨q, hq, rfl⟩
          have h1 := hgt q hq
          have h2 := (hmem q (List.mem_cons_of_mem _ hq)).2
          refine ⟨by omega, ?_⟩
          rw [List.length_drop]
          omega)]
      rw [spliceRec]
      simp

/-- The sequential insertion loop of the comment injector equals its closed
splice form when the insertion positions are ascending, distinct and within
the line range of the current text. -/
theorem seqInsert_eq_spliceRec (pcs : List (Nat × List Char))
    (L : List (List Char))
    (hsort : (pcs.map Prod.fst).Sorted (· ≤ ·))
    (hnd : (pcs.map Prod.fst).Nodup)
    (hmem : ∀ q ∈ pcs, 1 ≤ q.1 ∧ q.1 ≤ L.length) :
    seqInsert L pcs = spliceRec L pcs :=
  seqInsert_eq_spliceRec_aux pcs.length pcs L le_rfl hsort hnd hmem

/-- After the first insertion at ascending position `p`, the remaining
(shifted) insertions still satisfy the sortedness, distinctness and range
invariants with respect to the suffix. -/
theorem shift_invariants (p : Nat) (rest : List (Nat × List Char))
    (L : List (List Char))
    (hsort : ((p :: rest.map Prod.fst) : List Nat).Sorted (· ≤ ·))
    (hnd : ((p :: rest.map Prod.fst) : List Nat).Nodup)
    (hmem : ∀ q ∈ rest, 1 ≤ q.1 ∧ q.1 ≤ L.length)
    (hgt : ∀ q ∈ rest, p + 1 ≤ q.1) :
    ((rest.map (fun q => (q.1 - p, q.2))).map Prod.fst).Sorted (· ≤ ·)
    ∧ ((rest.map (fun q => (q.1 - p, q.2))).map Prod.fst).Nodup
    ∧ (∀ q ∈ rest.map (fun q => (q.1 - p, q.2)),
        1 ≤ q.1 ∧ q.1 ≤ (L.drop (p - 1)).length) := by
  refine ⟨?_, ?_, ?_⟩
  · rw [map_fst_shift]
    refine List.Pairwise.map _ ?_ (List.sorted_cons.mp hsort).2
    intro a b hab
    exact Nat.sub_le_sub_right hab p
  · rw [map_fst_shift]
    refine (List.nodup_cons.mp hnd).2.map_on ?_
    intro a ha b hb hfab
    rcases List.mem_map.mp ha with ⟨qa, hqa, rfl⟩
    rcases List.mem_map.mp hb with ⟨qb, hqb, rfl⟩
    have h1 := hgt qa hqa
    have h2 := hgt qb hqb
    omega
  · intro q' hq'
    rcases List.mem_map.mp hq' with ⟨q, hq, rfl⟩
    have h1 := hgt q hq
    have h2 := (hmem q hq).2
    refine ⟨by omega, ?_⟩
    rw [List.length_drop]
    omega

theorem spliceRec_getElem_aux :
    ∀ (n : Nat) (pcs : List (Nat × List Char)) (L : List (List Char)),
      pcs.length ≤ n →
      (pcs.map Prod.fst).Sorted (· ≤ ·) → (pcs.map Prod.fst).Nodup →
      (∀ q ∈ pcs, 1 ≤ q.1 ∧ q.1 ≤ L.length) →
      ∀ j (hj : j < pcs.length),
        (spliceRec L pcs)[pcs[j].1 - 1]? = some pcs[j].2 := by
  intro n
  induction n with
  | zero =>
    intro pcs L hlen _ _ _ j hj
    have : pcs = [] := List.length_eq_zero.mp (Nat.le_zero.mp hlen)
    subst this
    simp at hj
  | succ n ih =>
    intro pcs L hlen hsort hnd hmem j hj
    cases pcs with
    | nil => simp at hj
    | cons q0 rest =>
      obtain ⟨p, c⟩ := q0
      simp only [List.map_cons] at hsort hnd
      have hp1 : 1 ≤ p ∧ p ≤ L.length := hmem (p, c) (List.mem_cons_self _ _)
      have hgt : ∀ q ∈ rest, p + 1 ≤ q.1 := by
        intro q hq
        have hmem1 : q.1 ∈ rest.map Prod.fst := List.mem_map_of_mem _ hq
        have hle : p ≤ q.1 := (List.sorted_cons.mp hsort).1 q.1 hmem1
        have hne : p ≠ q.1 := by
          intro hc
          exact (List.nodup_cons.mp hnd).1 (hc ▸ hmem1)
        omega
      have htake : (L.take (p - 1)).length = p - 1 := by
        simp [List.length_take]
        omega
      rw [spliceRec]
      cases j with
      | zero =>
        simp only [List.getElem_cons_zero]
        rw [List.getElem?_append_right (by omega)]
        rw [htake]
        simp
      | succ j' =>
        have hj' : j' < rest.length := by
          simp only [List.length_cons] at hj
          omega
        simp only [List.getElem_cons_succ]
        have hqmem : rest[j'] ∈ rest := List.getElem_mem hj'
        have hq1 := hgt rest[j'] hqmem
        have hq2 := (hmem rest[j'] (List.mem_cons_of_mem _ hqmem)).2
        have hrw : L.take (p - 1) ++ c ::
            spliceRec (L.drop (p - 1)) (rest.map (fun q => (q.1 - p, q.2)))
            = (L.take (p - 1) ++ [c]) ++
              spliceRec (L.drop (p - 1)) (rest.map (fun q => (q.1 - p, q.2))) := by
          simp
        rw [hrw]
        have hAl : (L.take (p - 1) ++ [c]).length = p := by
          simp [htake]
          omega
        rw [List.getElem?_append_right (by rw [hAl]; omega), hAl]
        obtain ⟨hs, hn, hm⟩ := shift_invariants p rest L hsort hnd
          (fun q hq => hmem q (List.mem_cons_of_mem _ hq)) hgt
        have hj2 : j' < (rest.map (fun q => (q.1 - p, q.2))).length := by
          rw [List.length_map]
          exact hj'
        have hih := ih (rest.map (fun q => (q.1 - p, q.2))) (L.drop (p - 1))
          (by
            rw [List.length_map]
            simp only [List.length_cons] at hlen
            omega) hs hn hm j' hj2
        rw [List.getElem_map] at hih
        have hidx : rest[j'].1 - 1 - p = rest[j'].1 - p - 1 := by omega
        rw [hidx]
        exact hih

/-- For ascending distinct in-range insertions, the `j`-th inserted comment
sits at 0-based index `p_j - 1` of the final line list. -/
theorem spliceRec_getElem (pcs : List (Nat × List Char)) (L : List (List Char))
    (hsort : (pcs.map Prod.fst).Sorted (· ≤ ·))
    (hnd : (pcs.map Prod.fst).Nodup)
    (hmem : ∀ q ∈ pcs, 1 ≤ q.1 ∧ q.1 ≤ L.length) :
    ∀ j (hj : j < pcs.length),
      (spliceRec L pcs)[pcs[j].1 - 1]? = some pcs[j].2 :=
  spliceRec_getElem_aux pcs.length pcs L le_rfl hsort hnd hmem

/-- The comment-insertion loop, under the supply bound that makes its
`comment_index < num_comments` guard always true, is sequential insertion
paired with the inclusive `pos ≤ bug_line` pointer count against the
*original* pointer. -/
theorem commentLoop_eq (num : Int) (cs : List (List Char)) (bl : Int) :
    ∀ (ps : List Nat) (L : List (List Char)) (nb ci : Int),
      0 ≤ ci → ci + ps.length ≤ num → num ≤ (cs.length : Int) →
      commentLoop num cs bl ps L nb ci
        = (seqInsert L (ps.zip (cs.drop ci.toNat)),
           nb + ((ps.filter (fun p : Nat => decide ((p : Int) ≤ bl))).length : Int)) := by
  intro ps
  induction ps with
  | nil =>
    intro L nb ci h0 h1 h2
    simp [commentLoop, seqInsert]
  | cons p rest ih =>
    intro L nb ci h0 h1 h2
    have hci : ci < num := by
      simp only [List.length_cons] at h1
      omega
    have hlt : ci.toNat < cs.length := by omega
    simp only [commentLoop, if_pos hci]
    rw [ih _ _ (ci + 1) (by omega)
      (by simp only [List.length_cons] at h1; omega) h2]
    have hdrop : cs.drop ci.toNat = cs[ci.toNat] :: cs.drop (ci.toNat + 1) :=
      List.drop_eq_getElem_cons hlt
    have hgetD : cs.getD ci.toNat [] = cs[ci.toNat] := by
      rw [List.getD_eq_getElem?_getD, List.getElem?_eq_getElem hlt]
      rfl
    have htn : (ci + 1).toNat = ci.toNat + 1 := by omega
    rw [htn, hdrop, hgetD]
    have hzip : (p :: rest).zip (cs[ci.toNat] :: cs.drop (ci.toNat + 1))
        = (p, cs[ci.toNat]) :: rest.zip (cs.drop (ci.toNat + 1)) := rfl
    rw [hzip]
    have hseq : seqInsert L ((p, cs[ci.toNat]) :: rest.zip (cs.drop (ci.toNat + 1)))
        = seqInsert (pyInsert L ((p : Int) - 1) cs[ci.toNat])
            (rest.zip (cs.drop (ci.toNat + 1))) := rfl
    rw [hseq]
    by_cases hpb : (p : Int) ≤ bl
    · rw [if_pos hpb]
      have hfil : (p :: rest).filter (fun p : Nat => decide ((p : Int) ≤ bl))
          = p :: rest.filter (fun p : Nat => decide ((p : Int) ≤ bl)) := by
        simp [List.filter_cons, hpb]
      rw [hfil]
      simp only [List.length_cons, Prod.mk.injEq]
      refine ⟨trivial, ?_⟩
      push_cast
      omega
    · rw [if_neg hpb]
      have hfil : (p :: rest).filter (fun p : Nat => decide ((p : Int) ≤ bl))
          = rest.filter (fun p : Nat => decide ((p : Int) ≤ bl)) := by
        simp [List.filter_cons, hpb]
      rw [hfil]

theorem pySliceTo_sublist {α : Type} (l : List α) (k : Int) :
    (pySliceTo l k).Sublist l := by
  unfold pySliceTo
  split <;> exact List.take_sublist _ _

/-- C3 (amended): the selected lines are processed in ascending order, but
each insertion happens at list index `pos - 1` of the *current*, already
extended list without compensating for earlier insertions.  Consequently the
output equals the `spliceRec` closed form — the `j`-th comment (0-based)
lands at final 0-based index `p_j - 1`, i.e. immediately before the line that
was input line `p_j - j`, not immediately before input line `p_j` — and the
pointer is shifted by 1 for each insertion whose position is at most the
*original* pointer. -/
theorem claim3_amended (parse : List Char → Option (List Nat))
    (fix_code : List Char → List Char) (shuffle : List Nat → List Nat)
    (code : List Char) (bug_line : Int) (num_comments : Int)
    (comments_list : List (List Char)) (lin : List Nat) (ps : List Nat)
    (hp : parse code = some lin)
    (h0 : 0 ≤ num_comments)
    (hsupply : num_comments ≤ (comments_list.length : Int))
    (hstmts : ¬ List.insertionSort (· ≤ ·) lin.dedup = [])
    (hperm : (shuffle (List.insertionSort (· ≤ ·) lin.dedup)).Perm
      (List.insertionSort (· ≤ ·) lin.dedup))
    (hrange : ∀ p ∈ lin, 1 ≤ p ∧ p ≤ lineCount code)
    (hps : ps = List.insertionSort (· ≤ ·)
      (pySliceTo (shuffle (List.insertionSort (· ≤ ·) lin.dedup)) num_comments)) :
    insert_comments_str parse fix_code shuffle code bug_line num_comments
        comments_list
      = .ok (joinNl (spliceRec (pySplitlines code) (ps.zip comments_list))
            ++ ['\n'],
          bug_line + ((ps.filter
            (fun p : Nat => decide ((p : Int) ≤ bug_line))).length : Int))
    ∧ ∀ j (hj : j < (ps.zip comments_list).length),
        (spliceRec (pySplitlines code)
          (ps.zip comments_list))[(ps.zip comments_list)[j].1 - 1]?
          = some (ps.zip comments_list)[j].2 := by
  have hSnd : (List.insertionSort (· ≤ ·) lin.dedup).Nodup :=
    (List.perm_insertionSort _ _).nodup_iff.mpr lin.nodup_dedup
  have hshufnd : (shuffle (List.insertionSort (· ≤ ·) lin.dedup)).Nodup :=
    hperm.nodup_iff.mpr hSnd
  have hsliceSub := pySliceTo_sublist
    (shuffle (List.insertionSort (· ≤ ·) lin.dedup)) num_comments
  have hslice_nd := hsliceSub.nodup hshufnd
  have hps_nd : ps.Nodup := by
    rw [hps]
    exact (List.perm_insertionSort _ _).nodup_iff.mpr hslice_nd
  have hps_sorted : ps.Sorted (· ≤ ·) := by
    rw [hps]
    exact List.sorted_insertionSort _ _
  have hps_len : ps.length ≤ num_comments.toNat := by
    rw [hps, (List.perm_insertionSort _ _).length_eq]
    exact length_pySliceTo_le _ _ h0
  have hcs_len : num_comments.toNat ≤ comments_list.length := by omega
  have hps_mem : ∀ p ∈ ps, 1 ≤ p ∧ p ≤ (pySplitlines code).length := by
    intro p hpmem
    rw [hps] at hpmem
    have h1 := (List.perm_insertionSort _ _).mem_iff.mp hpmem
    have h2 := hsliceSub.subset h1
    have h3 := hperm.mem_iff.mp h2
    have h4 := (List.perm_insertionSort _ _).mem_iff.mp h3
    have h5 := List.mem_dedup.mp h4
    exact hrange p h5
  have hfst : (ps.zip comments_list).map Prod.fst = ps :=
    List.map_fst_zip _ _ (by omega)
  have hzmem : ∀ q ∈ ps.zip comments_list,
      1 ≤ q.1 ∧ q.1 ≤ (pySplitlines code).length :=
    fun q hq => hps_mem q.1 (List.of_mem_zip hq).1
  have hsort2 : ((ps.zip comments_list).map Prod.fst).Sorted (· ≤ ·) := by
    rw [hfst]; exact hps_sorted
  have hnd2 : ((ps.zip comments_list).map Prod.fst).Nodup := by
    rw [hfst]; exact hps_nd
  have hseq := commentLoop_eq num_comments comments_list bug_line ps
    (pySplitlines code) bug_line 0 le_rfl (by omega) hsupply
  rw [show ((0 : Int).toNat) = 0 from rfl, List.drop_zero] at hseq
  have hsplice := seqInsert_eq_spliceRec (ps.zip comments_list)
    (pySplitlines code) hsort2 hnd2 hzmem
  constructor
  · simp only [insert_comments_str, parseWithRetry, hp]
    simp only [insert_comments_go, if_neg (not_lt.mpr hsupply), if_neg hstmts]
    rw [← hps, hseq, hsplice]
  · intro j hj
    exact spliceRec_getElem (ps.zip comments_list) (pySplitlines code) hsort2
      hnd2 hzmem j hj

/-- C3 (counterexample): with statement lines `{1,2,3}`, selection `[1,2]`
and supply comments `# m0`, `# m1`, the second comment is assigned to
selected line 2 (content `b = 2`), but in the output the line directly
preceding `b = 2` (output index 2) is `a = 1`, not the comment: both comments
end up before `a = 1`. -/
theorem claim3_counterexample :
    insert_comments_str (fun _ => some [1, 2, 3]) (fun s => s) (fun l => l)
        ("a = 1\nb = 2\nc = 3\n").data 3 2 [("# m0").data, ("# m1").data]
      = .ok (("# m0\n# m1\na = 1\nb = 2\nc = 3\n").data, 5)
    ∧ (pySplitlines ("# m0\n# m1\na = 1\nb = 2\nc = 3\n").data)[3]?
        = some (("b = 2").data)
    ∧ (pySplitlines ("# m0\n# m1\na = 1\nb = 2\nc = 3\n").data)[2]?
        = some (("a = 1").data)
    ∧ ("a = 1").data ≠ ("# m1").data := by
  refine ⟨rfl, by decide, by decide, by decide⟩

theorem claim3_witness :
    insert_comments_str (fun _ => some [1, 2, 3]) (fun s => s) (fun l => l)
        ("a = 1\nb = 2\nc = 3\n").data 3 2 [("# m0").data, ("# m1").data]
      = .ok (joinNl (spliceRec (pySplitlines ("a = 1\nb = 2\nc = 3\n").data)
            (([1, 2] : List Nat).zip [("# m0").data, ("# m1").data])) ++ ['\n'],
          3 + ((([1, 2] : List Nat).filter
            (fun p : Nat => decide ((p : Int) ≤ 3))).length : Int)) :=
  (claim3_amended (fun _ => some [1, 2, 3]) (fun s => s) (fun l => l)
    ("a = 1\nb = 2\nc = 3\n").data 3 2 [("# m0").data, ("# m1").data]
    [1, 2, 3] [1, 2] rfl (by decide) (by decide) (by decide)
    (by decide) (by decide) (by decide)).1

/-! ## Claim C5 -/

/-- Bounds maintained by the comment-insertion loop: the pointer never
decreases, the line list never shrinks, and the pointer grows by at most one
per inserted line. -/
theorem commentLoop_bounds (num : Int) (cs : List (List Char)) (bl : Int) :
    ∀ (ps : List Nat) (L : List (List Char)) (nb ci : Int),
      nb ≤ (commentLoop num cs bl ps L nb ci).2
      ∧ L.length ≤ (commentLoop num cs bl ps L nb ci).1.length
      ∧ (commentLoop num cs bl ps L nb ci).2 + (L.length : Int)
          ≤ nb + ((commentLoop num cs bl ps L nb ci).1.length : Int) := by
  intro ps
  induction ps with
  | nil =>
    intro L nb ci
    simp [commentLoop]
  | cons p rest ih =>
    intro L nb ci
    by_cases hci : ci < num
    · simp only [commentLoop, if_pos hci]
      by_cases hpb : (p : Int) ≤ bl
      · rw [if_pos hpb]
        obtain ⟨ih1, ih2, ih3⟩ := ih (pyInsert L ((p : Int) - 1)
          (cs.getD ci.toNat [])) (nb + 1) (ci + 1)
        rw [length_pyInsert] at ih2 ih3
        refine ⟨by omega, by omega, by omega⟩
      · rw [if_neg hpb]
        obtain ⟨ih1, ih2, ih3⟩ := ih (pyInsert L ((p : Int) - 1)
          (cs.getD ci.toNat [])) nb (ci + 1)
        rw [length_pyInsert] at ih2 ih3
        refine ⟨by omega, by omega, by omega⟩
    · simp only [commentLoop, if_neg hci]
      exact ih L nb ci

/-- C5, comment-injector part: with a successful first parse and an in-range
input pointer, the returned pointer is within the output's line range. -/
theorem comment_pointer_range (parse : List Char → Option (List Nat))
    (fix_code : List Char → List Char) (shuffle : List Nat → List Nat)
    (code : List Char) (bug_line : Int) (num_comments : Int)
    (comments_list : List (List Char)) (lin : List Nat) (out : List Char × Int)
    (hp : parse code = some lin)
    (hb1 : 1 ≤ bug_line) (hb2 : bug_line ≤ (lineCount code : Int))
    (hok : insert_comments_str parse fix_code shuffle code bug_line
      num_comments comments_list = .ok out) :
    1 ≤ out.2 ∧ out.2 ≤ (lineCount out.1 : Int) := by
  simp only [insert_comments_str, parseWithRetry, hp] at hok
  simp only [insert_comments_go] at hok
  by_cases hsup : (comments_list.length : Int) < num_comments
  · rw [if_pos hsup] at hok
    simp at hok
  · rw [if_neg hsup] at hok
    by_cases hemp : List.insertionSort (· ≤ ·) lin.dedup = []
    · rw [if_pos hemp] at hok
      simp only [Except.ok.injEq] at hok
      rw [← hok]
      exact ⟨hb1, hb2⟩
    · rw [if_neg hemp] at hok
      simp only [Except.ok.injEq] at hok
      obtain ⟨h1, h2, h3⟩ := commentLoop_bounds num_comments comments_list
        bug_line (List.insertionSort (· ≤ ·) (pySliceTo (shuffle
          (List.insertionSort (· ≤ ·) lin.dedup)) num_comments))
        (pySplitlines code) bug_line 0
      rw [← hok]
      have hLne : (pySplitlines code) ≠ [] := by
        intro hc
        have : lineCount code = 0 := by simp [lineCount, hc]
        omega
      have hne : (commentLoop num_comments comments_list bug_line
          (List.insertionSort (· ≤ ·) (pySliceTo (shuffle
            (List.insertionSort (· ≤ ·) lin.dedup)) num_comments))
          (pySplitlines code) bug_line 0).1 ≠ [] := by
        intro hc
        rw [hc] at h2
        simp at h2
        exact hLne h2
      have hout := length_le_lineCount_joinNl hne
      simp only []
      constructor
      · omega
      · have : (lineCount code : Int) = ((pySplitlines code).length : Int) := rfl
        omega

/-- C5, renamer part: with a successful first parse the pointer is returned
unchanged, hence in range whenever the token reconstruction preserves the
line count (or the tokenizer fails and the text is returned unchanged). -/
theorem renamer_pointer_range (parseVars : List Char → Option (List (List Char)))
    (fix_code : List Char → List Char)
    (tokenizeF : List Char → Option (List Tok))
    (untokenizeF : List Tok → List Char) (code : List Char) (bug_line : Int)
    (num_vars : Int) (vars_list : List (List Char)) (ov : List (List Char))
    (hp : parseVars code = some ov)
    (hb1 : 1 ≤ bug_line) (hb2 : bug_line ≤ (lineCount code : Int)) :
    (tokenizeF code = none →
      1 ≤ (update_variable_names_str parseVars fix_code tokenizeF untokenizeF
          code bug_line num_vars vars_list).2
      ∧ (update_variable_names_str parseVars fix_code tokenizeF untokenizeF
          code bug_line num_vars vars_list).2
        ≤ (lineCount (update_variable_names_str parseVars fix_code tokenizeF
            untokenizeF code bug_line num_vars vars_list).1 : Int))
    ∧ (∀ toks, tokenizeF code = some toks →
      (∀ t ∈ toks, t.type = NAME → goodName t.string) →
      (∀ v ∈ vars_list, goodName v) →
      (∀ toks2, renamedOK toks toks2 →
        lineCount (untokenizeF toks2) = lineCount code) →
      1 ≤ (update_variable_names_str parseVars fix_code tokenizeF untokenizeF
          code bug_line num_vars vars_list).2
      ∧ (update_variable_names_str parseVars fix_code tokenizeF untokenizeF
          code bug_line num_vars vars_list).2
        ≤ (lineCount (update_variable_names_str parseVars fix_code tokenizeF
            untokenizeF code bug_line num_vars vars_list).1 : Int)) := by
  constructor
  · intro htok
    have hres : update_variable_names_str parseVars fix_code tokenizeF
        untokenizeF code bug_line num_vars vars_list = (code, bug_line) := by
      simp [update_variable_names_str, parseWithRetry, hp,
        update_variable_names_go, htok]
    rw [hres]
    exact ⟨hb1, hb2⟩
  · intro toks ht hnames hvars huntok
    have hres : update_variable_names_str parseVars fix_code tokenizeF
        untokenizeF code bug_line num_vars vars_list
      = (untokenizeF (toks.map (fun tok =>
          if tok.type = NAME ∧ (dictLookup ((pySliceTo ov num_vars).zip
              (pySliceTo vars_list num_vars)) tok.string).isSome then
            { tok with string := (dictLookup ((pySliceTo ov num_vars).zip
                (pySliceTo vars_list num_vars)) tok.string).getD [] }
          else tok)), bug_line) := by
      simp [update_variable_names_str, parseWithRetry, hp,
        update_variable_names_go, ht]
    rw [hres]
    have hlc := huntok _ (renamedOK_map
      ((pySliceTo ov num_vars).zip (pySliceTo vars_list num_vars)) toks hnames
      (fun p hp2 => hvars p.2 (mem_pySliceTo (List.of_mem_zip hp2).2)))
    simp only []
    rw [hlc]
    exact ⟨hb1, hb2⟩

theorem endsNl_append {A B : List Char} (h : B ≠ []) :
    endsNl (A ++ B) = endsNl B := by
  induction A with
  | nil => rfl
  | cons c A ih =>
    cases hA : A ++ B with
    | nil =>
      rcases List.append_eq_nil.mp hA with ⟨_, h2⟩
      exact absurd h2 h
    | cons d m =>
      rw [List.cons_append, hA, endsNl_cons_cons, ← hA]
      exact ih

theorem flatten_ne_nil_of_head {x : List Char} {t : List (List Char)}
    (hx : x ≠ []) : (x :: t).flatten ≠ [] := by
  simp only [List.flatten_cons]
  intro hc
  exact hx (List.append_eq_nil.mp hc).1

/-- When every chunk is nonempty, the concatenation ends in a newline exactly
when the last chunk does. -/
theorem endsNl_flatten (ls : List (List Char)) (hne : ls ≠ [])
    (hel : ∀ l ∈ ls, l ≠ []) :
    endsNl ls.flatten = endsNl (ls.getLast hne) := by
  induction ls with
  | nil => exact absurd rfl hne
  | cons x t ih =>
    cases t with
    | nil =>
      simp only [List.flatten_cons, List.flatten_nil, List.append_nil]
      rfl
    | cons y t2 =>
      have hy : y ≠ [] := hel y (List.mem_cons_of_mem _ (List.mem_cons_self _ _))
      have hfl : (y :: t2).flatten ≠ [] := flatten_ne_nil_of_head hy
      rw [List.flatten_cons, endsNl_append hfl]
      rw [List.getLast_cons (by simp : (y :: t2) ≠ [])]
      exact ih (by simp) (fun l hl => hel l (List.mem_cons_of_mem _ hl))

theorem length_le_count_flatten (ls : List (List Char))
    (h : ∀ l ∈ ls, 1 ≤ l.count '\n') :
    ls.length ≤ (ls.flatten).count '\n' := by
  induction ls with
  | nil => simp
  | cons x t ih =>
    simp only [List.flatten_cons, List.count_append, List.length_cons]
    have h1 := h x (List.mem_cons_self _ _)
    have h2 := ih (fun l hl => h l (List.mem_cons_of_mem _ hl))
    omega

theorem getLast?_drop_of_lt {α : Type} :
    ∀ (l : List α) (k : Nat), k < l.length → (l.drop k).getLast? = l.getLast? := by
  intro l
  induction l with
  | nil => intro k hk; simp at hk
  | cons x t ih =>
    intro k hk
    cases k with
    | zero => rfl
    | succ k' =>
      simp only [List.drop_succ_cons]
      have ht : k' < t.length := by
        simp only [List.length_cons] at hk
        omega
      rw [ih k' ht]
      cases t with
      | nil => simp at ht
      | cons y t2 => rw [List.getLast?_cons_cons]

theorem sum_le_sum_of_sublist_nonneg :
    ∀ {l₁ l₂ : List Int}, l₁.Sublist l₂ → (∀ x ∈ l₂, 0 ≤ x) →
      l₁.sum ≤ l₂.sum := by
  intro l₁ l₂ h
  induction h with
  | slnil => intro _; simp
  | cons x hsub ih =>
    intro h0
    have := ih (fun y hy => h0 y (List.mem_cons_of_mem _ hy))
    have hx := h0 x (List.mem_cons_self _ _)
    simp only [List.sum_cons]
    omega
  | cons₂ x hsub ih =>
    intro h0
    have := ih (fun y hy => h0 y (List.mem_cons_of_mem _ hy))
    simp only [List.sum_cons]
    omega

theorem sum_filter_add_le_of_mem {α : Type} (f : α → Int) (p : α → Bool)
    (q : α) :
    ∀ (l : List α), q ∈ l → p q = false → (∀ x ∈ l, 0 ≤ f x) →
      ((l.filter p).map f).sum + f q ≤ (l.map f).sum := by
  intro l
  induction l with
  | nil => intro hq; simp at hq
  | cons x t ih =>
    intro hq hpq h0
    rcases List.mem_cons.mp hq with hx | hx
    · subst hx
      rw [List.filter_cons_of_neg (by simp [hpq])]
      have hsub : ((t.filter p).map f).sum ≤ (t.map f).sum :=
        sum_le_sum_of_sublist_nonneg ((t.filter_sublist).map f)
          (fun y hy => by
            rcases List.mem_map.mp hy with ⟨a, ha, rfl⟩
            exact h0 a (List.mem_cons_of_mem _ ha))
      simp only [List.map_cons, List.sum_cons]
      omega
    · have hIH := ih hx hpq (fun y hy => h0 y (List.mem_cons_of_mem _ hy))
      by_cases hpx : p x = true
      · rw [List.filter_cons_of_pos hpx]
        simp only [List.map_cons, List.sum_cons]
        omega
      · rw [List.filter_cons_of_neg (by simp [hpx])]
        simp only [List.map_cons, List.sum_cons]
        have := h0 x (List.mem_cons_self _ _)
        omega

/-- The splicing loop emits every original line once and every re-indented
snippet line once (in interleaved order). -/
theorem buildNewLines_perm (original : List (List Char)) :
    ∀ (pairs : List (Nat × List Char)) (k : Nat),
      (buildNewLines original k pairs).Perm
        (original.drop k ++ pairs.flatMap
          (fun q => indent_snippet q.2 (get_base_indent original q.1))) := by
  intro pairs
  induction pairs with
  | nil => intro k; simp [buildNewLines]
  | cons q rest ih =>
    intro k
    obtain ⟨p, s⟩ := q
    have hsplit : original.drop k
        = (original.drop k).take (p - k) ++ original.drop (max k p) := by
      conv_lhs => rw [← List.take_append_drop (p - k) (original.drop k)]
      congr 1
      rw [List.drop_drop]
      congr 1
      omega
    simp only [buildNewLines, List.flatMap_cons]
    conv_rhs => rw [hsplit]
    simp only [List.append_assoc]
    refine List.Perm.append_left _ ?_
    refine List.Perm.trans (List.Perm.append_left _ (ih (max k p))) ?_
    rw [← List.append_assoc, ← List.append_assoc]
    exact List.Perm.append_right _ List.perm_append_comm

theorem buildNewLines_ne_nil (original : List (List Char)) :
    ∀ (pairs : List (Nat × List Char)) (k : Nat), k < original.length →
      buildNewLines original k pairs ≠ [] := by
  intro pairs
  induction pairs with
  | nil =>
    intro k hk
    simp only [buildNewLines]
    simp [List.drop_eq_nil_iff]
    omega
  | cons q rest ih =>
    intro k hk
    obtain ⟨p, s⟩ := q
    simp only [buildNewLines]
    intro hc
    have hlen := congrArg List.length hc
    simp only [List.length_append, List.length_take, List.length_drop,
      List.length_nil] at hlen
    by_cases hp : p ≤ k
    · have hmax : max k p = k := by omega
      rw [hmax] at hlen
      have hB : buildNewLines original k rest = [] :=
        List.length_eq_zero.mp (by omega)
      exact ih k hk hB
    · omega

theorem getLast?_append_of_ne_nil {α : Type} (l₁ : List α) {l₂ : List α}
    (h : l₂ ≠ []) : (l₁ ++ l₂).getLast? = l₂.getLast? := by
  rw [List.getLast?_append]
  rw [List.getLast?_eq_getLast _ h]
  rfl

theorem flatMap_eq_nil_of_forall {α β : Type} (f : α → List β) :
    ∀ (l : List α), (∀ x ∈ l, f x = []) → l.flatMap f = [] := by
  intro l
  induction l with
  | nil => intro _; rfl
  | cons x t ih =>
    intro h
    rw [List.flatMap_cons, h x (List.mem_cons_self _ _), List.nil_append]
    exact ih (fun y hy => h y (List.mem_cons_of_mem _ hy))

/-- Splicing with the cursor already at the end of the file appends only the
re-indented snippet lines. -/
theorem buildNewLines_total (original : List (List Char)) :
    ∀ (pairs : List (Nat × List Char)),
      (∀ q ∈ pairs, q.1 ≤ original.length) →
      buildNewLines original original.length pairs
        = pairs.flatMap
            (fun q => indent_snippet q.2 (get_base_indent original q.1)) := by
  intro pairs
  induction pairs with
  | nil =>
    intro _
    simp [buildNewLines]
  | cons q rest ih =>
    intro h
    obtain ⟨p, s⟩ := q
    have hple : p ≤ original.length := h (p, s) (List.mem_cons_self _ _)
    simp only [buildNewLines, List.flatMap_cons]
    have hmax : max original.length p = original.length := by omega
    have hseg : (original.drop original.length).take (p - original.length)
        = [] := by
      simp
    rw [hmax, hseg, List.nil_append,
      ih (fun y hy => h y (List.mem_cons_of_mem _ hy))]

/-- If every snippet aimed at the end-of-file offset produces no lines, the
spliced list still ends with the original last line. -/
theorem buildNewLines_getLast? (original : List (List Char)) :
    ∀ (pairs : List (Nat × List Char)) (k : Nat), k < original.length →
      List.Pairwise (fun a b : Nat × List Char => a.1 ≤ b.1) pairs →
      (∀ q ∈ pairs, q.1 ≤ original.length) →
      (∀ q ∈ pairs, q.1 = original.length →
        indent_snippet q.2 (get_base_indent original q.1) = []) →
      (buildNewLines original k pairs).getLast? = original.getLast? := by
  intro pairs
  induction pairs with
  | nil =>
    intro k hk _ _ _
    simp only [buildNewLines]
    exact getLast?_drop_of_lt original k hk
  | cons q rest ih =>
    intro k hk hsorted hle hemp
    obtain ⟨p, s⟩ := q
    have hple : p ≤ original.length := hle (p, s) (List.mem_cons_self _ _)
    simp only [buildNewLines]
    by_cases hp : p < original.length
    · have hmax : max k p < original.length := by omega
      have hB : buildNewLines original (max k p) rest ≠ [] :=
        buildNewLines_ne_nil original rest (max k p) hmax
      rw [getLast?_append_of_ne_nil _ hB]
      exact ih (max k p) hmax (List.pairwise_cons.mp hsorted).2
        (fun y hy => hle y (List.mem_cons_of_mem _ hy))
        (fun y hy hyt => hemp y (List.mem_cons_of_mem _ hy) hyt)
    · have hptot : p = original.length := by omega
      have hins : indent_snippet s (get_base_indent original p) = [] :=
        hemp (p, s) (List.mem_cons_self _ _) hptot
      have hmax : max k p = original.length := by omega
      have hresttot : ∀ y ∈ rest, y.1 = original.length := by
        intro y hy
        have h1 := (List.pairwise_cons.mp hsorted).1 y hy
        have h2 := hle y (List.mem_cons_of_mem _ hy)
        omega
      have hB : buildNewLines original original.length rest = [] := by
        rw [buildNewLines_total original rest
          (fun y hy => hle y (List.mem_cons_of_mem _ hy))]
        exact flatMap_eq_nil_of_forall _ rest
          (fun y hy => hemp y (List.mem_cons_of_mem _ hy) (hresttot y hy))
      rw [hmax, hB, hins]
      have hseg : (original.drop k).take (p - k) = original.drop k := by
        apply List.take_of_length_le
        rw [List.length_drop]
        omega
      rw [hseg]
      simp only [List.append_nil]
      exact getLast?_drop_of_lt original k hk

instance : IsTotal (Nat × List Char) (fun a b => a.1 ≤ b.1) :=
  ⟨fun a b => Nat.le_total a.1 b.1⟩

instance : IsTrans (Nat × List Char) (fun a b => a.1 ≤ b.1) :=
  ⟨fun _ _ _ => Nat.le_trans⟩

/-- Core pointer-range bound for the dead-code injector: with blank-free
dedented snippets and in-range offsets, `bug_line + extra` stays within the
spliced output's line count. -/
theorem dead_core (code : List Char) (bug_line : Int)
    (zipped pairs : List (Nat × List Char)) (extra : Int)
    (hb1 : 1 ≤ bug_line) (hb2 : bug_line ≤ (lineCount code : Int))
    (hblank : ∀ q ∈ zipped, ∀ l ∈ pySplitlines (pyDedent q.2),
      isBlankLine l = false)
    (hple : ∀ q ∈ zipped, q.1 ≤ lineCount code)
    (hpairs : pairs = List.insertionSort
      (fun a b : Nat × List Char => a.1 ≤ b.1) zipped)
    (hextra : extra = zipped.foldl
      (fun acc pr =>
        if (pr.1 : Int) ≤ bug_line - 1 then
          acc + ((pySplitlines (pyDedent pr.2)).length : Int)
        else acc) 0) :
    1 ≤ bug_line + extra
    ∧ bug_line + extra
      ≤ (lineCount (buildNewLines (splitlinesKeepends code) 0 pairs).flatten
          : Int) := by
  have hextra2 : extra = ((zipped.filter
      (fun pr : Nat × List Char => decide ((pr.1 : Int) ≤ bug_line - 1))).map
        (fun pr : Nat × List Char =>
          ((pySplitlines (pyDedent pr.2)).length : Int))).sum := by
    rw [hextra, foldl_if_sum
      (fun pr : Nat × List Char => (pr.1 : Int) ≤ bug_line - 1)
      (fun pr : Nat × List Char =>
        ((pySplitlines (pyDedent pr.2)).length : Int))]
    omega
  have hextra_nonneg : 0 ≤ extra := by
    rw [hextra2]
    apply List.sum_nonneg
    intro x hx
    rcases List.mem_map.mp hx with ⟨a, _, rfl⟩
    exact Int.ofNat_nonneg _
  refine ⟨by omega, ?_⟩
  -- abbreviations used repeatedly below are written out in full; the proof
  -- tracks four quantities: the newline count of the input, the inserted
  -- line totals, `extra`, and the output newline count
  have hdelta : ∀ q ∈ zipped,
      (pySplitlines (pyDedent q.2)).length
        = (indent_snippet q.2 (get_base_indent (splitlinesKeepends code)
            q.1)).length := by
    intro q hq
    simp only [indent_snippet, List.length_map]
    rw [List.filter_eq_self.mpr]
    intro l hl
    simp [hblank q hq l hl]
  have hpairs_perm : pairs.Perm zipped := by
    rw [hpairs]
    exact List.perm_insertionSort _ _
  have hSeq : (zipped.map (fun q : Nat × List Char =>
      ((pySplitlines (pyDedent q.2)).length : Int))).sum
      = (pairs.map (fun q : Nat × List Char =>
        ((indent_snippet q.2 (get_base_indent (splitlinesKeepends code)
          q.1)).length : Int))).sum := by
    rw [List.map_congr_left (fun q hq => by rw [hdelta q hq])]
    exact (hpairs_perm.map _).sum_eq.symm
  have hextra_le : extra ≤ (pairs.map (fun q : Nat × List Char =>
      ((indent_snippet q.2 (get_base_indent (splitlinesKeepends code)
        q.1)).length : Int))).sum := by
    rw [hextra2, ← hSeq]
    apply sum_le_sum_of_sublist_nonneg (List.Sublist.map _ (List.filter_sublist _))
    intro x hx
    rcases List.mem_map.mp hx with ⟨a, _, rfl⟩
    exact Int.ofNat_nonneg _
  have hbuild_perm := buildNewLines_perm (splitlinesKeepends code) pairs 0
  rw [List.drop_zero] at hbuild_perm
  have hflat_perm : (buildNewLines (splitlinesKeepends code) 0 pairs).flatten.Perm
      (code ++ (pairs.flatMap (fun q => indent_snippet q.2
        (get_base_indent (splitlinesKeepends code) q.1))).flatten) := by
    have h1 := hbuild_perm.flatten
    rw [List.flatten_append, join_splitlinesKeepends] at h1
    exact h1
  have hcount_out : (buildNewLines (splitlinesKeepends code) 0
      pairs).flatten.count '\n'
      = code.count '\n' + ((pairs.flatMap (fun q => indent_snippet q.2
        (get_base_indent (splitlinesKeepends code) q.1))).flatten).count '\n' := by
    rw [hflat_perm.count_eq, List.count_append]
  have hins_nl : ∀ l ∈ pairs.flatMap (fun q => indent_snippet q.2
      (get_base_indent (splitlinesKeepends code) q.1)), 1 ≤ l.count '\n' := by
    intro l hl
    rcases List.mem_flatMap.mp hl with ⟨q, _, hlq⟩
    simp only [indent_snippet, List.mem_map] at hlq
    rcases hlq with ⟨x, _, rfl⟩
    rw [List.append_assoc, List.count_append, List.count_append]
    have h1 : List.count '\n' ['\n'] = 1 := by decide
    omega
  have hflat_len_le : (pairs.flatMap (fun q => indent_snippet q.2
      (get_base_indent (splitlinesKeepends code) q.1))).length
      ≤ ((pairs.flatMap (fun q => indent_snippet q.2
        (get_base_indent (splitlinesKeepends code) q.1))).flatten).count '\n' :=
    length_le_count_flatten _ hins_nl
  have hlen_flatMap : ((pairs.flatMap (fun q => indent_snippet q.2
      (get_base_indent (splitlinesKeepends code) q.1))).length : Int)
      = (pairs.map (fun q : Nat × List Char =>
        ((indent_snippet q.2 (get_base_indent (splitlinesKeepends code)
          q.1)).length : Int))).sum := by
    rw [List.length_flatMap, Nat.cast_list_sum, List.map_map]
    rfl
  have hcount_le_out : ((buildNewLines (splitlinesKeepends code) 0
      pairs).flatten.count '\n' : Int)
      ≤ (lineCount (buildNewLines (splitlinesKeepends code) 0
        pairs).flatten : Int) := by
    have := count_le_lineCount (buildNewLines (splitlinesKeepends code) 0
      pairs).flatten
    omega
  by_cases hend : endsNl code = true
  · have hlc : lineCount code = code.count '\n' := lineCount_of_endsNl hend
    rw [hlc] at hb2
    omega
  · have hcode_ne : code ≠ [] := by
      intro hc
      subst hc
      simp [lineCount, pySplitlines, splitOnNl] at hb2
      omega
    have hlc : lineCount code = code.count '\n' + 1 :=
      lineCount_of_not_endsNl hcode_ne (Bool.not_eq_true _ ▸ hend)
    rw [hlc] at hb2
    by_cases hall : ∀ q ∈ zipped, ((q.1 : Int) ≤ bug_line - 1)
        ∨ indent_snippet q.2 (get_base_indent (splitlinesKeepends code) q.1) = []
    · -- no inserted line escapes the pointer filter: the output keeps the
      -- original (newline-free) last line, so its line count gains one
      have horig_ne : splitlinesKeepends code ≠ [] := by
        rw [ne_eq, splitlinesKeepends_eq_nil_iff]
        exact hcode_ne
      have h0lt : 0 < (splitlinesKeepends code).length :=
        List.length_pos.mpr horig_ne
      have hsorted_pairs : List.Pairwise
          (fun a b : Nat × List Char => a.1 ≤ b.1) pairs := by
        rw [hpairs]
        exact List.sorted_insertionSort _ _
      have hple_pairs : ∀ q ∈ pairs, q.1 ≤ (splitlinesKeepends code).length := by
        intro q hq
        rw [length_splitlinesKeepends]
        exact hple q (hpairs_perm.subset hq)
      have hemp_pairs : ∀ q ∈ pairs, q.1 = (splitlinesKeepends code).length →
          indent_snippet q.2 (get_base_indent (splitlinesKeepends code) q.1)
            = [] := by
        intro q hq hqt
        rcases hall q (hpairs_perm.subset hq) with hcond | hnil
        · exfalso
          rw [length_splitlinesKeepends] at hqt
          omega
        · exact hnil
      have hlast := buildNewLines_getLast? (splitlinesKeepends code) pairs 0
        h0lt hsorted_pairs hple_pairs hemp_pairs
      have hnew_ne : buildNewLines (splitlinesKeepends code) 0 pairs ≠ [] :=
        buildNewLines_ne_nil _ pairs 0 h0lt
      have hel_new : ∀ l ∈ buildNewLines (splitlinesKeepends code) 0 pairs,
          l ≠ [] := by
        intro l hl
        have hl2 := hbuild_perm.subset hl
        rcases List.mem_append.mp hl2 with hl3 | hl3
        · exact ne_nil_of_mem_splitlinesKeepends code l hl3
        · rcases List.mem_flatMap.mp hl3 with ⟨q, _, hlq⟩
          simp only [indent_snippet, List.mem_map] at hlq
          rcases hlq with ⟨x, _, rfl⟩
          simp
      have hgl : (buildNewLines (splitlinesKeepends code) 0 pairs).getLast
          hnew_ne = (splitlinesKeepends code).getLast horig_ne := by
        have h1 := hlast
        rw [List.getLast?_eq_getLast _ hnew_ne,
          List.getLast?_eq_getLast _ horig_ne] at h1
        exact Option.some_inj.mp h1
      have hends_out : endsNl (buildNewLines (splitlinesKeepends code) 0
          pairs).flatten = false := by
        rw [endsNl_flatten _ hnew_ne hel_new, hgl]
        have h2 := endsNl_flatten (splitlinesKeepends code) horig_ne
          (ne_nil_of_mem_splitlinesKeepends code)
        rw [join_splitlinesKeepends] at h2
        rw [← h2]
        exact Bool.not_eq_true _ ▸ hend
      have hflat_ne : (buildNewLines (splitlinesKeepends code) 0
          pairs).flatten ≠ [] := by
        intro hc
        have := hflat_perm.length_eq
        rw [hc] at this
        simp only [List.length_nil, List.length_append] at this
        have := List.length_pos.mpr hcode_ne
        omega
      have hout : lineCount (buildNewLines (splitlinesKeepends code) 0
          pairs).flatten
          = (buildNewLines (splitlinesKeepends code) 0 pairs).flatten.count '\n'
            + 1 :=
        lineCount_of_not_endsNl hflat_ne hends_out
      omega
    · push_neg at hall
      rcases hall with ⟨q, hqmem, hqcond, hqne⟩
      have hq_extra : extra + ((pySplitlines (pyDedent q.2)).length : Int)
          ≤ (zipped.map (fun q : Nat × List Char =>
            ((pySplitlines (pyDedent q.2)).length : Int))).sum := by
        rw [hextra2]
        apply sum_filter_add_le_of_mem _ _ q zipped hqmem
          (by simp [hqcond])
        intro x _
        exact Int.ofNat_nonneg _
      have hq1 : 1 ≤ ((pySplitlines (pyDedent q.2)).length : Int) := by
        rw [hdelta q hqmem]
        have : 0 < (indent_snippet q.2 (get_base_indent
            (splitlinesKeepends code) q.1)).length := List.length_pos.mpr hqne
        omega
      rw [hSeq] at hq_extra
      omega

/-- C5, dead-code part: with blank-free dedented snippets and in-range
offsets, the returned pointer is within the output's line range. -/
theorem dead_pointer_range (sampleSnips : Nat → List (List Char))
    (samplePos : Nat → List Nat) (code : List Char) (bug_line num_dead : Int)
    (dead_snippets : List (List Char))
    (hb1 : 1 ≤ bug_line) (hb2 : bug_line ≤ (lineCount code : Int))
    (hsnips : ∀ k, ∀ s ∈ sampleSnips k, ∀ l ∈ pySplitlines (pyDedent s),
      isBlankLine l = false)
    (hposle : ∀ k, ∀ p ∈ samplePos k, p ≤ lineCount code) :
    1 ≤ (insert_dead_code_snippets_str sampleSnips samplePos code bug_line
        num_dead dead_snippets).2
    ∧ (insert_dead_code_snippets_str sampleSnips samplePos code bug_line
        num_dead dead_snippets).2
      ≤ (lineCount (insert_dead_code_snippets_str sampleSnips samplePos code
          bug_line num_dead dead_snippets).1 : Int) := by
  by_cases hns : min num_dead (min (dead_snippets.length : Int)
      ((splitlinesKeepends code).length : Int)) ≤ 0
  · simp only [insert_dead_code_snippets_str, if_pos hns]
    exact ⟨hb1, hb2⟩
  · simp only [insert_dead_code_snippets_str, if_neg hns]
    exact dead_core code bug_line
      ((List.insertionSort (· ≤ ·) (samplePos (min num_dead
        (min (dead_snippets.length : Int)
          ((splitlinesKeepends code).length : Int))).toNat)).zip
        (sampleSnips (min num_dead (min (dead_snippets.length : Int)
          ((splitlinesKeepends code).length : Int))).toNat))
      _ _ hb1 hb2
      (fun q hq => hsnips _ q.2 (List.of_mem_zip hq).2)
      (fun q hq => hposle _ q.1
        ((List.perm_insertionSort _ _).mem_iff.mp (List.of_mem_zip hq).1))
      rfl rfl

/-- C5 (amended): the pointer-range invariant `1 ≤ pointer ≤ output line
count` holds for each mutator under the conditions its code actually
guarantees: for the comment injector when the first parse succeeds; for the
renamer when the first parse succeeds and the tokenizer either fails or its
reconstruction preserves the line count (as it does for identifier-shaped
names); and for the dead-code injector when the chosen snippets' dedented
forms contain no blank lines and offsets are within range.  Without the
blank-line restriction the dead-code injector violates the invariant. -/
theorem claim5_amended :
    (∀ (parse : List Char → Option (List Nat)) fix_code shuffle code
        (bug_line num_comments : Int) comments_list lin out,
        parse code = some lin → 1 ≤ bug_line →
        bug_line ≤ (lineCount code : Int) →
        insert_comments_str parse fix_code shuffle code bug_line num_comments
          comments_list = .ok out →
        1 ≤ out.2 ∧ out.2 ≤ (lineCount out.1 : Int))
    ∧ (∀ (parseVars : List Char → Option (List (List Char))) fix_code tokenizeF
        untokenizeF code (bug_line num_vars : Int) vars_list ov,
        parseVars code = some ov → 1 ≤ bug_line →
        bug_line ≤ (lineCount code : Int) →
        (tokenizeF code = none →
          1 ≤ (update_variable_names_str parseVars fix_code tokenizeF
              untokenizeF code bug_line num_vars vars_list).2
          ∧ (update_variable_names_str parseVars fix_code tokenizeF untokenizeF
              code bug_line num_vars vars_list).2
            ≤ (lineCount (update_variable_names_str parseVars fix_code
                tokenizeF untokenizeF code bug_line num_vars vars_list).1 : Int))
        ∧ (∀ toks, tokenizeF code = some toks →
          (∀ t ∈ toks, t.type = NAME → goodName t.string) →
          (∀ v ∈ vars_list, goodName v) →
          (∀ toks2, renamedOK toks toks2 →
            lineCount (untokenizeF toks2) = lineCount code) →
          1 ≤ (update_variable_names_str parseVars fix_code tokenizeF
              untokenizeF code bug_line num_vars vars_list).2
          ∧ (update_variable_names_str parseVars fix_code tokenizeF untokenizeF
              code bug_line num_vars vars_list).2
            ≤ (lineCount (update_variable_names_str parseVars fix_code
                tokenizeF untokenizeF code bug_line num_vars
                vars_list).1 : Int)))
    ∧ (∀ sampleSnips samplePos code (bug_line num_dead : Int) dead_snippets,
        1 ≤ bug_line → bug_line ≤ (lineCount code : Int) →
        (∀ k, ∀ s ∈ sampleSnips k, ∀ l ∈ pySplitlines (pyDedent s),
          isBlankLine l = false) →
        (∀ k, ∀ p ∈ samplePos k, p ≤ lineCount code) →
        1 ≤ (insert_dead_code_snippets_str sampleSnips samplePos code bug_line
            num_dead dead_snippets).2
        ∧ (insert_dead_code_snippets_str sampleSnips samplePos code bug_line
            num_dead dead_snippets).2
          ≤ (lineCount (insert_dead_code_snippets_str sampleSnips samplePos
              code bug_line num_dead dead_snippets).1 : Int)) := by
  refine ⟨?_, ?_, ?_⟩
  · intro parse fix_code shuffle code bug_line num_comments comments_list lin
      out hp hb1 hb2 hok
    exact comment_pointer_range parse fix_code shuffle code bug_line
      num_comments comments_list lin out hp hb1 hb2 hok
  · intro parseVars fix_code tokenizeF untokenizeF code bug_line num_vars
      vars_list ov hp hb1 hb2
    exact renamer_pointer_range parseVars fix_code tokenizeF untokenizeF code
      bug_line num_vars vars_list ov hp hb1 hb2
  · intro sampleSnips samplePos code bug_line num_dead dead_snippets hb1 hb2
      hsnips hposle
    exact dead_pointer_range sampleSnips samplePos code bug_line num_dead
      dead_snippets hb1 hb2 hsnips hposle

/-- C5 (counterexample): a snippet whose dedented form has blank lines bumps
the pointer by its total line count (3) while inserting only its non-blank
lines (1): the input satisfies `1 ≤ pointer ≤ input line count` but the
result has pointer 6 in a 4-line output. -/
theorem claim5_counterexample :
    (1 : Int) ≤ 3 ∧ (3 : Int) ≤ (lineCount ("a = 1\nb = 2\nc = 3\n").data : Int)
    ∧ (insert_dead_code_snippets_str (fun _ => [("x = 0\n\n\n").data])
        (fun _ => [0]) ("a = 1\nb = 2\nc = 3\n").data 3 1
        [("x = 0\n\n\n").data]).2 = 6
    ∧ (lineCount (insert_dead_code_snippets_str (fun _ => [("x = 0\n\n\n").data])
        (fun _ => [0]) ("a = 1\nb = 2\nc = 3\n").data 3 1
        [("x = 0\n\n\n").data]).1 : Int) = 4
    ∧ ¬((6 : Int) ≤ 4) := by
  refine ⟨by decide, by decide, rfl, by decide, by decide⟩

theorem claim5_witness :
    ((1 : Int) ≤ (("x = 1\n").data, (1 : Int)).2
      ∧ (("x = 1\n").data, (1 : Int)).2
        ≤ (lineCount (("x = 1\n").data, (1 : Int)).1 : Int))
    ∧ (1 ≤ (update_variable_names_str (fun _ => some []) (fun s => s)
        (fun _ => none) (fun _ => []) ("y = 2\n").data 1 0 []).2
      ∧ (update_variable_names_str (fun _ => some []) (fun s => s)
          (fun _ => none) (fun _ => []) ("y = 2\n").data 1 0 []).2
        ≤ (lineCount (update_variable_names_str (fun _ => some [])
            (fun s => s) (fun _ => none) (fun _ => []) ("y = 2\n").data 1 0
            []).1 : Int))
    ∧ (1 ≤ (insert_dead_code_snippets_str (fun _ => [("z = 9").data])
        (fun _ => [1]) ("a = 1\nb = 2\n").data 2 1 [("z = 9").data]).2
      ∧ (insert_dead_code_snippets_str (fun _ => [("z = 9").data])
          (fun _ => [1]) ("a = 1\nb = 2\n").data 2 1 [("z = 9").data]).2
        ≤ (lineCount (insert_dead_code_snippets_str (fun _ => [("z = 9").data])
            (fun _ => [1]) ("a = 1\nb = 2\n").data 2 1
            [("z = 9").data]).1 : Int)) := by
  refine ⟨?_, ?_, ?_⟩
  · exact claim5_amended.1 (fun _ => some [1]) (fun s => s) (fun l => l)
      ("x = 1\n").data 1 0 [] [1] (("x = 1\n").data, 1) rfl (by decide)
      (by decide) rfl
  · exact (claim5_amended.2.1 (fun _ => some []) (fun s => s) (fun _ => none)
      (fun _ => []) ("y = 2\n").data 1 0 [] [] rfl (by decide) (by decide)).1
      rfl
  · exact claim5_amended.2.2 (fun _ => [("z = 9").data]) (fun _ => [1])
      ("a = 1\nb = 2\n").data 2 1 [("z = 9").data] (by decide) (by decide)
      (by intro k
          show ∀ s ∈ [("z = 9").data], ∀ l ∈ pySplitlines (pyDedent s),
            isBlankLine l = false
          decide)
      (by intro k
          show ∀ p ∈ [1], p ≤ lineCount ("a = 1\nb = 2\n").data
          decide)

end LLMFL
